import Mathlib

/-!
Verification development for the canvas-ex plugin's extraction/templating
pipeline. Definitions are shallow embeddings of the TypeScript source
(src/unnamed/part_000, part_003, src/src/parseYamlFenced.ts, src/main.ts).

Modeling conventions:
* JS strings are Lean `String`/`List Char` (UTF-16 quirks such as lone
  surrogates are out of scope).
* JS numbers are modeled as `Int`: the JSON values exercised by this
  pipeline are integers; IEEE-754 fractions/exponents are out of scope, so
  the embedded JSON parser accepts integer numerals only.
* Fallible code (JSON.parse, the TypeError raised by calling .toString()
  on null) is modeled with `Option`; the try/catch blocks of the source
  are modeled by matching on the `Option`.
* Functions that must evaluate inside kernel-checked proofs use explicit
  fuel (structural recursion on `Nat`); wrappers instantiate the fuel with
  a sufficient bound computed from the input.
-/

/-- JSON value, as produced by JSON.parse (numbers restricted to integers). -/
inductive Json where
  | null : Json
  | bool (b : Bool) : Json
  | num (n : Int) : Json
  | str (s : String) : Json
  | arr (items : List Json) : Json
  | obj (entries : List (String × Json)) : Json

/-- The four whitespace characters accepted between JSON tokens by JSON.parse. -/
def isJsonWs (c : Char) : Bool :=
  c = ' ' || c = '\t' || c = '\n' || c = '\r'

def skipJsonWs (s : List Char) : List Char :=
  s.dropWhile isJsonWs

def isDigitCh (c : Char) : Bool :=
  48 ≤ c.toNat && c.toNat ≤ 57

/-- Value of a hexadecimal digit, used for \uXXXX escapes. -/
def hexVal (c : Char) : Option Nat :=
  if '0' ≤ c && c ≤ '9' then some (c.toNat - 48)
  else if 'a' ≤ c && c ≤ 'f' then some (c.toNat - 87)
  else if 'A' ≤ c && c ≤ 'F' then some (c.toNat - 55)
  else none

/-- Body of a JSON string literal after the opening quote: collects
characters (handling the escape sequences JSON.parse accepts) until the
closing quote. \u escapes in the surrogate range are rejected (lone
UTF-16 surrogates are out of modeled scope). -/
def parseStringBody : List Char → List Char → Option (String × List Char)
  | acc, '"' :: r => some (String.mk acc.reverse, r)
  | acc, '\\' :: 'u' :: h1 :: h2 :: h3 :: h4 :: r =>
    (match hexVal h1, hexVal h2, hexVal h3, hexVal h4 with
     | some a, some b, some c, some d =>
       let n := ((a * 16 + b) * 16 + c) * 16 + d
       if n < 0xd800 || 0xdfff < n then
         parseStringBody (Char.ofNat n :: acc) r
       else none
     | _, _, _, _ => none)
  | acc, '\\' :: e :: r =>
    (match e with
     | '"' => parseStringBody ('"' :: acc) r
     | '\\' => parseStringBody ('\\' :: acc) r
     | '/' => parseStringBody ('/' :: acc) r
     | 'b' => parseStringBody (Char.ofNat 8 :: acc) r
     | 'f' => parseStringBody (Char.ofNat 12 :: acc) r
     | 'n' => parseStringBody ('\n' :: acc) r
     | 'r' => parseStringBody ('\r' :: acc) r
     | 't' => parseStringBody ('\t' :: acc) r
     | _ => none)
  | acc, c :: r =>
    if 0x20 ≤ c.toNat then parseStringBody (c :: acc) r else none
  | _, [] => none

/-- Munch decimal digits, accumulating their value. -/
def munchDigits : List Char → Nat → Nat × List Char
  | c :: r, acc =>
    if isDigitCh c then munchDigits r (10 * acc + (c.toNat - 48)) else (acc, c :: r)
  | [], acc => (acc, [])

/-- JSON integer numeral: optional minus sign, then 0 or a nonzero-led
digit run (JSON.parse rejects leading zeros). Fractions and exponents are
not modeled (see header). -/
def parseNumber : List Char → Option (Int × List Char)
  | '-' :: r =>
    (match r with
     | '0' :: r2 =>
       (match r2 with
        | c :: _ => if isDigitCh c then none else some (0, r2)
        | [] => some (0, []))
     | c :: _ =>
       if isDigitCh c then
         let p := munchDigits r 0
         some (-(p.1 : Int), p.2)
       else none
     | [] => none)
  | '0' :: r =>
    (match r with
     | c :: _ => if isDigitCh c then none else some (0, r)
     | [] => some (0, []))
  | c :: r =>
    if isDigitCh c then
      let p := munchDigits (c :: r) 0
      some ((p.1 : Int), p.2)
    else none
  | [] => none

/-- Insert a key into a parsed-object entry list with JS semantics:
a duplicate key keeps its original position but takes the new value. -/
def objInsert (entries : List (String × Json)) (k : String) (v : Json) :
    List (String × Json) :=
  if entries.any (fun kv => kv.1 = k) then
    entries.map (fun kv => if kv.1 = k then (k, v) else kv)
  else entries ++ [(k, v)]

mutual

/-- Recursive-descent JSON value parser (fuel-based). -/
def parseValue : Nat → List Char → Option (Json × List Char)
  | 0, _ => none
  | fuel + 1, s =>
    match skipJsonWs s with
    | 'n' :: 'u' :: 'l' :: 'l' :: r => some (Json.null, r)
    | 't' :: 'r' :: 'u' :: 'e' :: r => some (Json.bool true, r)
    | 'f' :: 'a' :: 'l' :: 's' :: 'e' :: r => some (Json.bool false, r)
    | '"' :: r =>
      (match parseStringBody [] r with
       | some (t, r2) => some (Json.str t, r2)
       | none => none)
    | '[' :: r => parseArrayRest fuel r
    | '{' :: r => parseObjRest fuel r
    | s2 =>
      (match parseNumber s2 with
       | some (n, r) => some (Json.num n, r)
       | none => none)

def parseArrayRest : Nat → List Char → Option (Json × List Char)
  | 0, _ => none
  | fuel + 1, s =>
    match skipJsonWs s with
    | ']' :: r => some (Json.arr [], r)
    | _ => parseArrayItems fuel s []

def parseArrayItems : Nat → List Char → List Json → Option (Json × List Char)
  | 0, _, _ => none
  | fuel + 1, s, acc =>
    match parseValue fuel s with
    | some (v, r) =>
      (match skipJsonWs r with
       | ',' :: r2 => parseArrayItems fuel r2 (v :: acc)
       | ']' :: r2 => some (Json.arr (v :: acc).reverse, r2)
       | _ => none)
    | none => none

def parseObjRest : Nat → List Char → Option (Json × List Char)
  | 0, _ => none
  | fuel + 1, s =>
    match skipJsonWs s with
    | '}' :: r => some (Json.obj [], r)
    | _ => parseObjItems fuel s []

def parseObjItems : Nat → List Char → List (String × Json) → Option (Json × List Char)
  | 0, _, _ => none
  | fuel + 1, s, acc =>
    match skipJsonWs s with
    | '"' :: r =>
      (match parseStringBody [] r with
       | some (k, r2) =>
         (match skipJsonWs r2 with
          | ':' :: r3 =>
            (match parseValue fuel r3 with
             | some (v, r4) =>
               (match skipJsonWs r4 with
                | ',' :: r5 => parseObjItems fuel r5 (objInsert acc k v)
                | '}' :: r5 => some (Json.obj (objInsert acc k v), r5)
                | _ => none)
             | none => none)
          | _ => none)
       | none => none)
    | _ => none

end

/-- JSON.parse: parse one value, allow trailing whitespace only. -/
def jsonParse (s : String) : Option Json :=
  match parseValue (4 * s.length + 8) s.data with
  | some (j, r) => if skipJsonWs r = [] then some j else none
  | none => none

def hexDigitLower (n : Nat) : Char :=
  if n < 10 then Char.ofNat (48 + n) else Char.ofNat (87 + n)

/-- JSON.stringify escaping of one character inside a string literal. -/
def escapeJsonChar (c : Char) : List Char :=
  if c = '"' then ['\\', '"']
  else if c = '\\' then ['\\', '\\']
  else if c = '\n' then ['\\', 'n']
  else if c = '\r' then ['\\', 'r']
  else if c = '\t' then ['\\', 't']
  else if c.toNat = 8 then ['\\', 'b']
  else if c.toNat = 12 then ['\\', 'f']
  else if c.toNat < 0x20 then
    ['\\', 'u', '0', '0', hexDigitLower (c.toNat / 16), hexDigitLower (c.toNat % 16)]
  else [c]

/-- JSON.stringify rendering of a string (quotes plus escapes). -/
def quoteJsonString (s : String) : String :=
  String.mk ('"' :: (s.data.flatMap escapeJsonChar ++ ['"']))

mutual

/-- JSON.stringify(v) with no indentation argument. -/
def stringifyCompact : Json → String
  | Json.null => "null"
  | Json.bool b => if b then "true" else "false"
  | Json.num n => toString n
  | Json.str s => quoteJsonString s
  | Json.arr items => "[" ++ String.intercalate "," (stringifyCompactL items) ++ "]"
  | Json.obj entries => "\x7b" ++ String.intercalate "," (stringifyCompactO entries) ++ "\x7d"

def stringifyCompactL : List Json → List String
  | [] => []
  | j :: tl => stringifyCompact j :: stringifyCompactL tl

def stringifyCompactO : List (String × Json) → List String
  | [] => []
  | (k, v) :: tl => (quoteJsonString k ++ ":" ++ stringifyCompact v) :: stringifyCompactO tl

end

def spacesN (n : Nat) : String :=
  String.mk (List.replicate n ' ')

mutual

/-- JSON.stringify(v, null, 2): pretty-printed with two-space indentation.
The first argument is the current indentation of the enclosing value. -/
def stringifyInd : Nat → Json → String
  | _, Json.arr [] => "[]"
  | ind, Json.arr (j :: rest) =>
    "[\n" ++ String.intercalate ",\n" (stringifyIndL (ind + 2) (j :: rest)) ++
      "\n" ++ spacesN ind ++ "]"
  | _, Json.obj [] => "{}"
  | ind, Json.obj (e :: rest) =>
    "\x7b\n" ++ String.intercalate ",\n" (stringifyIndO (ind + 2) (e :: rest)) ++
      "\n" ++ spacesN ind ++ "\x7d"
  | _, j => stringifyCompact j

def stringifyIndL : Nat → List Json → List String
  | _, [] => []
  | ind, j :: tl => (spacesN ind ++ stringifyInd ind j) :: stringifyIndL ind tl

def stringifyIndO : Nat → List (String × Json) → List String
  | _, [] => []
  | ind, (k, v) :: tl =>
    (spacesN ind ++ quoteJsonString k ++ ": " ++ stringifyInd ind v) :: stringifyIndO ind tl

end

def jsonStringifyPretty (j : Json) : String :=
  stringifyInd 0 j

mutual

/-- JS String(v), the coercion used by template-literal interpolation.
For arrays this is Array.prototype.join(",") where null elements render
as the empty string; plain objects render as "[object Object]". -/
def jsString : Json → String
  | Json.null => "null"
  | Json.bool b => if b then "true" else "false"
  | Json.num n => toString n
  | Json.str s => s
  | Json.arr items => String.intercalate "," (jsStringJoinL items)
  | Json.obj _ => "[object Object]"

def jsStringJoinL : List Json → List String
  | [] => []
  | Json.null :: tl => "" :: jsStringJoinL tl
  | v :: tl => jsString v :: jsStringJoinL tl

end

/-- JS v.toString(): like String(v) except that calling it on null raises
a TypeError, modeled as none. -/
def jsToStringMethod : Json → Option String
  | Json.null => none
  | v => some (jsString v)

/-- JS falsiness of a JSON value (`!item`). -/
def jsFalsy : Json → Bool
  | Json.null => true
  | Json.bool b => !b
  | Json.num n => n = 0
  | Json.str s => s = ""
  | _ => false

/-- JS item[field] for a parsed JSON value: an own-property lookup on an
object, undefined (none) otherwise. (Exotic built-in properties such as
the length of arrays/strings are not modeled; the pipeline only reads
plain data fields.) -/
def jsGetField : Json → String → Option Json
  | Json.obj entries, f => (entries.find? (fun kv => kv.1 = f)).map (fun kv => kv.2)
  | _, _ => none

/-- typeof v === 'object' (true for objects, arrays and null). -/
def typeofIsObject : Json → Bool
  | Json.obj _ => true
  | Json.arr _ => true
  | Json.null => true
  | _ => false

/-- Option-propagating map: the modeled semantics of a JS Array.map
callback that can raise, as used below. -/
def optMapM (g : α → Option β) : List α → Option (List β)
  | [] => some []
  | a :: l =>
    match g a with
    | some b => (optMapM g l).map (fun bs => b :: bs)
    | none => none

/-- formatField(item, field) from the source. Returns none when the JS
code would raise a TypeError (a null element inside an array-valued
field, hit by value.map(v => v.toString())); the callers' try/catch
handles that case. -/
def formatField (item : Json) (field : String) : Option String :=
  if jsFalsy item || field = "" then some ""
  else
    match jsGetField item field with
    | some (Json.arr vs) =>
      (optMapM jsToStringMethod vs).map
        (fun parts => field ++ ":\n- " ++ String.intercalate "\n- " parts)
    | some (Json.obj entries) =>
      some (field ++ ": " ++ stringifyCompact (Json.obj entries))
    | some v => some (field ++ ": " ++ jsString v)
    | none => some ""

/-- One pushed line of the object fan-out branch:
f + ": " + (typeof vv === 'object' ? JSON.stringify(vv) : String(vv)). -/
def fanElement (f : String) (vv : Json) : String :=
  if typeofIsObject vv then f ++ ": " ++ stringifyCompact vv
  else f ++ ": " ++ jsString vv

/-- Array.isArray on a possibly-undefined field value. -/
def fieldIsArray (item : Json) (f : String) : Bool :=
  match jsGetField item f with
  | some (Json.arr _) => true
  | _ => false

/-- The whitespace stripped by String.prototype.trim (ASCII part; exotic
Unicode spaces are out of modeled scope). -/
def isJsTrimWs (c : Char) : Bool :=
  c = ' ' || c = '\t' || c = '\n' || c = '\r' || c.toNat = 11 || c.toNat = 12

def jsTrimChars (s : List Char) : List Char :=
  ((s.dropWhile isJsTrimWs).reverse.dropWhile isJsTrimWs).reverse

def jsTrimString (s : String) : String :=
  String.mk (jsTrimChars s.data)

/-- The array branch of the decomposition loop (part_000 lines 1103-1107):
for each element build the newline-joined formatField renderings of the
field list and push it unless it trims to empty. A TypeError thrown by
formatField escapes the loop to the catch block, which pushes the
extracted text after whatever was already pushed. -/
def decomposeArrayLoop (fieldList : List String) (extracted : String) :
    List Json → List String → List String
  | [], acc => acc
  | item :: rest, acc =>
    match optMapM (formatField item) fieldList with
    | some parts =>
      let t := String.intercalate "\n" parts
      if jsTrimString t ≠ "" then decomposeArrayLoop fieldList extracted rest (acc ++ [t])
      else decomposeArrayLoop fieldList extracted rest acc
    | none => acc ++ [extracted]

/-- The field decomposition applied to the extracted JSON text
(part_000 lines 1100-1131 / parseYamlFenced.ts lines 597-628):
parse; arrays fan out per element; objects fan out per array-valued field
(one fragment per array element), falling back to a single concatenated
fragment when no field value is an array; primitives, parse failures and
caught exceptions yield the extracted text itself. -/
def decompose (extracted : String) (fieldList : List String) : List String :=
  match jsonParse extracted with
  | none => [extracted]
  | some (Json.arr items) => decomposeArrayLoop fieldList extracted items []
  | some (Json.obj entries) =>
    if fieldList.any (fun f => fieldIsArray (Json.obj entries) f) then
      fieldList.flatMap (fun f =>
        match jsGetField (Json.obj entries) f with
        | some (Json.arr vs) => vs.map (fun vv => fanElement f vv)
        | _ => [])
    else
      match optMapM (formatField (Json.obj entries)) fieldList with
      | some parts => [String.intercalate "\n" parts]
      | none => [extracted]
  | some _ => [extracted]

/-- settings.groqExtractFields.split(',').map(f => f.trim()).filter(f => f). -/
def splitCommaAux : List Char → List Char → List (List Char)
  | [], acc => [acc.reverse]
  | c :: r, acc =>
    if c = ',' then acc.reverse :: splitCommaAux r [] else splitCommaAux r (c :: acc)

def splitFields (s : String) : List String :=
  ((splitCommaAux s.data []).map (fun cs => jsTrimString (String.mk cs))).filter
    (fun f => f ≠ "")

/-- The segment of text matched by the non-greedy pattern op[\s\S]*?cl:
from the first occurrence of op to the first cl after it. (When the first
op has no following cl, the regex engine would try later op positions,
but those cannot have a following cl either, so returning none is
equivalent.) -/
def firstCloseSeg (cl : Char) : List Char → Option (List Char)
  | [] => none
  | c :: r =>
    if c = cl then some [c] else (firstCloseSeg cl r).map (fun seg => c :: seg)

def firstDelimitedCandidate (op cl : Char) : List Char → Option (List Char)
  | [] => none
  | c :: r =>
    if c = op then (firstCloseSeg cl r).map (fun seg => c :: seg)
    else firstDelimitedCandidate op cl r

/-- The object-literal fallback of extractFirstJson: match /\{([\s\S]*?)}/
and pretty-print it if it parses. -/
def extractFirstJsonObj (text : String) : Option String :=
  match firstDelimitedCandidate '{' '}' text.data with
  | some cand => (jsonParse (String.mk cand)).map jsonStringifyPretty
  | none => none

/-- extractFirstJson from the source (part_003 lines 50-66): try the
non-greedy array-literal match first, JSON.parse it and return the
2-space-indented re-serialization; on no match or parse failure fall back
to the object-literal match; otherwise null. -/
def extractFirstJson (text : String) : Option String :=
  match firstDelimitedCandidate '[' ']' text.data with
  | some cand =>
    (match jsonParse (String.mk cand) with
     | some j => some (jsonStringifyPretty j)
     | none => extractFirstJsonObj text)
  | none => extractFirstJsonObj text

/-- Expect a literal character sequence, returning the remainder. -/
def dropLit : List Char → List Char → Option (List Char)
  | [], s => some s
  | k :: ks, c :: s => if c = k then dropLit ks s else none
  | _ :: _, [] => none

/-- The characters matched by \s in a JS regex (ASCII part; Unicode
space characters are out of modeled scope). -/
def jsRegexWs (c : Char) : Bool :=
  c.toNat = 32 || c.toNat = 9 || c.toNat = 10 || c.toNat = 13 || c.toNat = 11 || c.toNat = 12

/-- Match attempt, at the current position, of the compiled regex
\{\{\s*text<d>\s*\}} used by applyGroupTemplate (d is the decimal index).
Returns the remainder after the match. Greedy \s* runs are deterministic
here because no whitespace character can begin the following literal. -/
def tryMatchGroup (d : List Char) (s : List Char) : Option (List Char) :=
  (dropLit ['{', '{'] s).bind (fun r =>
    (dropLit ('t' :: 'e' :: 'x' :: 't' :: d) (r.dropWhile jsRegexWs)).bind (fun r2 =>
      dropLit ['}', '}'] (r2.dropWhile jsRegexWs)))

/-- Scan for the lazy tail ".*?\}\}" of the {{flag: ...}} marker pattern:
the first "}}" at or after the current position, failing if a line break
intervenes (the dot of a JS regex does not match line terminators). -/
def findCloseRem : List Char → Option (List Char)
  | [] => none
  | [_] => none
  | c :: c2 :: t =>
    if c = '}' && c2 = '}' then some t
    else if c = '\n' || c = '\r' then none
    else findCloseRem (c2 :: t)

/-- Match attempt of /\{\{flag:.*?\}\}/ at the current position. -/
def tryMatchFlag (s : List Char) : Option (List Char) :=
  (dropLit ['{', '{', 'f', 'l', 'a', 'g', ':'] s).bind findCloseRem

/-- One backtracking attempt of the applyOutputTemplate pattern: assume
the leading s* run consumed n characters, then expect the key literally,
then the trailing s* run (deterministically maximal) and "}}". -/
def outAttempt (key : List Char) (r : List Char) (n : Nat) : Option (List Char) :=
  (dropLit key (r.drop n)).bind (fun r2 =>
    dropLit ['}', '}'] (r2.dropWhile (fun c => c = 's')))

/-- Greedy backtracking over the length of the leading s* run (longest
attempt first, as a greedy quantifier does). -/
def outBacktrack (key : List Char) (r : List Char) : Nat → Option (List Char)
  | 0 => outAttempt key r 0
  | n + 1 =>
    match outAttempt key r (n + 1) with
    | some res => some res
    | none => outBacktrack key r n

/-- Match attempt of the applyOutputTemplate regex. The source builds it
from the template literal `{{\s*${key}\s*}}`, in which \s collapses to
the plain letter s, so the compiled pattern is {{s*<key>s*}}: two braces,
any run of the letter 's', the key, another run of 's', two braces —
not whitespace. The key is matched literally (the keys this pipeline
passes contain no regex metacharacters). -/
def tryMatchOut (key : List Char) (s : List Char) : Option (List Char) :=
  match dropLit ['{', '{'] s with
  | some r => outBacktrack key r ((r.takeWhile (fun c => c = 's')).length)
  | none => none

/-- String.prototype.replace with a global regex, modeled generically
over a position matcher m: scan left to right; at a match emit the
replacement (treated literally; $-substitution patterns in replacement
strings are out of modeled scope) and resume after the matched span;
otherwise copy one character. Fuel-based; fuel = input length suffices
since every match consumes at least one character. -/
def scanReplaceF (m : List Char → Option (List Char)) (repl : List Char) :
    Nat → List Char → List Char
  | 0, s => s
  | _ + 1, [] => []
  | fuel + 1, c :: t =>
    match m (c :: t) with
    | some rest => repl ++ scanReplaceF m repl fuel rest
    | none => c :: scanReplaceF m repl fuel t

def regReplace (m : List Char → Option (List Char)) (repl : List Char)
    (s : List Char) : List Char :=
  scanReplaceF m repl s.length s

/-- Whether the global regex modeled by m matches anywhere in s. -/
def hasMatchF (m : List Char → Option (List Char)) : Nat → List Char → Bool
  | 0, _ => false
  | _ + 1, [] => false
  | fuel + 1, c :: t => (m (c :: t)).isSome || hasMatchF m fuel t

/-- Decimal digit character. -/
def digitChar (n : Nat) : Char :=
  Char.ofNat (48 + n)

def natDigitsF : Nat → Nat → List Char
  | 0, _ => []
  | fuel + 1, n =>
    if n < 10 then [digitChar n]
    else natDigitsF fuel (n / 10) ++ [digitChar (n % 10)]

/-- Decimal representation of a natural number, as JS renders the
template-literal index `text${i+1}`. -/
def natDigits (n : Nat) : List Char :=
  natDigitsF (n + 1) n

/-- Canvas node, restricted to the fields this pipeline reads or writes.
Coordinates are modeled as integers (they are always numbers here, so
the source's typeof guards hold identically). -/
structure CanvasNode where
  id : String
  x : Int
  y : Int
  width : Int
  height : Int
  type : Option String := none
  text : Option String := none
deriving DecidableEq

/-- textNodes[i]?.text ?? '' -/
def nodeTextAt (textNodes : List CanvasNode) (i : Nat) : String :=
  ((textNodes.get? i).bind CanvasNode.text).getD ""

/-- applyGroupTemplate from the source (src/main.ts lines 984-991 /
part_003 lines 41-48): for i = 0..N-1 replace every occurrence of
\{\{\s*text<i+1>\s*\}} (correctly escaped in this function, hence truly
whitespace-tolerant) with the i-th node's text, sequentially. -/
def applyGroupTemplate (template : String) (textNodes : List CanvasNode) : String :=
  String.mk ((List.range textNodes.length).foldl
    (fun acc i => regReplace (tryMatchGroup (natDigits (i + 1))) (nodeTextAt textNodes i).data acc)
    template.data)

/-- applyOutputTemplate from the source (part_003 lines 119-126): for
each context key in order, replace every match of the compiled pattern
(see tryMatchOut) with the value, null/undefined coerced to "". -/
def applyOutputTemplate (template : String) (context : List (String × Option String)) : String :=
  String.mk (context.foldl
    (fun acc kv => regReplace (tryMatchOut kv.1.data) (kv.2.getD "").data acc)
    template.data)

/-- text.replace(/\{\{flag:.*?\}\}/g, '') -/
def stripFlags (s : List Char) : List Char :=
  regReplace tryMatchFlag [] s

/-- The cleanup applied to a fragment before it becomes a node's text
(part_003 line 935): strip {{flag: ...}} markers, then trim. -/
def cleanFragment (s : String) : String :=
  jsTrimString (String.mk (stripFlags s.data))

/-- Whether /\{\{flag:.*?\}\}/ matches somewhere in the fragment. -/
def hasFlagMarker (s : String) : Bool :=
  hasMatchF tryMatchFlag s.data.length s.data

/-- The group-containment test of the context-menu handlers
(src/main.ts lines 779-787 / parseYamlFenced.ts lines 520-528): a text
node with numeric geometry whose bounding box lies inside the group's. -/
def nodeInGroup (group n : CanvasNode) : Bool :=
  decide (n.type = some "text") &&
  decide (group.x ≤ n.x) &&
  decide (group.y ≤ n.y) &&
  decide (n.x + n.width ≤ group.x + group.width) &&
  decide (n.y + n.height ≤ group.y + group.height)

def groupTextNodes (nodes : List CanvasNode) (group : CanvasNode) : List CanvasNode :=
  nodes.filter (fun n => nodeInGroup group n)

/-- History entry (text plus creation timestamp; favorite omitted — new
entries never set it). -/
structure GroqNodeHistoryEntry where
  text : String
  timestamp : Nat
deriving DecidableEq

/-- if (history.length > 100) history.length = 100 -/
def capHistory (h : List GroqNodeHistoryEntry) : List GroqNodeHistoryEntry :=
  if h.length > 100 then h.take 100 else h

/-- The history side-effect of posting fragments (part_003 lines
947-956): unshift each fragment with the current timestamp, then cap at
100 entries. -/
def historyAppendBatch (h : List GroqNodeHistoryEntry) (texts : List String)
    (now : Nat) : List GroqNodeHistoryEntry :=
  capHistory (texts.foldl (fun acc t => { text := t, timestamp := now } :: acc) h)

/-- One sequential insertion run: each text inserted by its own batch. -/
def historySeqInsert (h : List GroqNodeHistoryEntry) (texts : List String)
    (now : Nat) : List GroqNodeHistoryEntry :=
  texts.foldl (fun acc t => historyAppendBatch acc [t] now) h

/-- The node appended for fragment idx (part_003 lines 934-944); ids
abstracts the nondeterministic 'node-' + Date.now() + '-' + random id. -/
def groqNewNode (anchor : CanvasNode) (ids : Nat → String) (idx : Nat)
    (text : String) : CanvasNode :=
  { id := ids idx
    type := some "text"
    text := some (cleanFragment text)
    x := anchor.x + anchor.width + 40
    y := anchor.y + anchor.height - 60 + 130 * (idx : Int)
    width := 300
    height := 120 }

/-- The node-append loop (part_003 lines 930-946): push one new text
node per fragment onto the document's node array. -/
def appendGroqNodes (nodes : List CanvasNode) (texts : List String)
    (anchor : CanvasNode) (ids : Nat → String) : List CanvasNode :=
  nodes ++ (texts.enum.map (fun p => groqNewNode anchor ids p.1 p.2))

/-- The combined post-response document and history mutation
(part_003 lines 930-956): nodes get the cleaned fragment text, history
entries store the original fragment text. -/
def groqPostEffects (nodes : List CanvasNode) (history : List GroqNodeHistoryEntry)
    (texts : List String) (anchor : CanvasNode) (ids : Nat → String) (now : Nat) :
    List CanvasNode × List GroqNodeHistoryEntry :=
  (appendGroqNodes nodes texts anchor ids, historyAppendBatch history texts now)

/-- pat occurs as a contiguous substring of s. -/
def ContainsSub (pat s : List Char) : Prop :=
  ∃ u v, s = u ++ pat ++ v

/-- The family of strings matched by \{\{\s*text<d>\s*\}}: "{{", a
whitespace run, "text" and the decimal index, a whitespace run, "}}". -/
def wsVariant (d w1 w2 : List Char) : List Char :=
  '{' :: '{' :: (w1 ++ 't' :: 'e' :: 'x' :: 't' :: (d ++ w2 ++ ['}', '}']))

/-- The canonical placeholder text {{text<j>}}. -/
def placeholderStr (j : Nat) : List Char :=
  wsVariant (natDigits j) [] []

/-- A template segment: a literal piece, or one placeholder occurrence
with its interior whitespace. -/
inductive TSeg where
  | lit (l : List Char) : TSeg
  | ph (d w1 w2 : List Char) : TSeg
deriving DecidableEq

def segChars : TSeg → List Char
  | TSeg.lit l => l
  | TSeg.ph d w1 w2 => wsVariant d w1 w2

def segsChars (segs : List TSeg) : List Char :=
  segs.flatMap segChars

/-- Well-formedness of a segment: literals contain no opening brace;
placeholders carry a nonempty decimal index and whitespace runs. -/
def segWF : TSeg → Bool
  | TSeg.lit l => l.all (fun c => c ≠ '{')
  | TSeg.ph d w1 w2 =>
    (!d.isEmpty) && d.all isDigitCh && w1.all jsRegexWs && w2.all jsRegexWs

/-- Effect of one replacement pass (pattern index string d, replacement
repl) at segment granularity. -/
def segPass (d repl : List Char) : TSeg → TSeg
  | TSeg.lit l => TSeg.lit l
  | TSeg.ph d2 w1 w2 => if d2 = d then TSeg.lit repl else TSeg.ph d2 w1 w2

/-- Effect of the whole applyGroupTemplate pass sequence at segment
granularity: a placeholder whose index names one of the N nodes becomes
that node's text, any other placeholder survives. -/
def segsFinal (textNodes : List CanvasNode) : TSeg → TSeg
  | TSeg.lit l => TSeg.lit l
  | TSeg.ph d w1 w2 =>
    match (List.range textNodes.length).find? (fun i => decide (d = natDigits (i + 1))) with
    | some i => TSeg.lit (nodeTextAt textNodes i).data
    | none => TSeg.ph d w1 w2

/-! ### Helper lemmas -/

theorem dropLit_eq_some_iff (k : List Char) :
    ∀ s r, dropLit k s = some r ↔ s = k ++ r := by
  induction k with
  | nil => intro s r; simp [dropLit]
  | cons a k ih =>
    intro s r
    cases s with
    | nil => simp [dropLit]
    | cons c t =>
      by_cases hca : c = a
      · subst hca
        simp [dropLit, ih]
      · simp [dropLit, hca]


theorem dropLit_self (k r : List Char) : dropLit k (k ++ r) = some r :=
  (dropLit_eq_some_iff k (k ++ r) r).mpr rfl

theorem dropLit_some_len {k s r : List Char} (h : dropLit k s = some r) :
    s.length = k.length + r.length := by
  rw [dropLit_eq_some_iff] at h
  subst h
  simp [Nat.add_comm]

/-! ### C1, C5, C6 -/

/-- C1: the claim says applyOutputTemplate replaces the placeholder of
each context key tolerating whitespace inside the braces. The code
builds the regex from the template literal `{{\s*${key}\s*}}`, in which
the backslash is consumed by the template literal, so the compiled
pattern tolerates runs of the letter 's', not whitespace: '{{ json }}'
and '{{json }}' survive unreplaced while '{{json}}' and '{{ssjson}}'
are replaced; a null value is still replaced by the empty string. -/
theorem applyOutputTemplate_ws_lost :
    applyOutputTemplate "{{ json }}" [("json", some "X")] = "{{ json }}"
    ∧ applyOutputTemplate "{{json }}" [("json", some "X")] = "{{json }}"
    ∧ applyOutputTemplate "{{ json}}" [("json", some "X")] = "{{ json}}"
    ∧ applyOutputTemplate "{{json}}" [("json", some "X")] = "X"
    ∧ applyOutputTemplate "{{ssjson}}" [("json", some "X")] = "X"
    ∧ applyOutputTemplate "a {{json}} b {{json}}" [("json", some "Z")] = "a Z b Z"
    ∧ applyOutputTemplate "{{json}}" [("json", none)] = "" :=
  ⟨by decide, by decide, by decide, by decide, by decide, by decide, by decide⟩

/-- C5: extractFirstJson first tries the non-greedy array-literal match
and JSON-parses it; if that is absent or unparseable it tries the
non-greedy object-literal match; the result is the 2-space-indented
re-serialization of the first successful parse, null otherwise. In
particular "prefix [1,2,3] suffix" yields the pretty-printed array and
"no json here" yields null. -/
theorem extractFirstJson_spec :
    (∀ (text : String) (cand : List Char) (j : Json),
      firstDelimitedCandidate '[' ']' text.data = some cand →
      jsonParse (String.mk cand) = some j →
      extractFirstJson text = some (jsonStringifyPretty j))
    ∧ (∀ (text : String) (cand : List Char),
      firstDelimitedCandidate '[' ']' text.data = some cand →
      jsonParse (String.mk cand) = none →
      extractFirstJson text = extractFirstJsonObj text)
    ∧ (∀ text : String, firstDelimitedCandidate '[' ']' text.data = none →
      extractFirstJson text = extractFirstJsonObj text)
    ∧ (∀ (text : String) (cand : List Char) (j : Json),
      firstDelimitedCandidate '{' '}' text.data = some cand →
      jsonParse (String.mk cand) = some j →
      extractFirstJsonObj text = some (jsonStringifyPretty j))
    ∧ (∀ (text : String) (cand : List Char),
      firstDelimitedCandidate '{' '}' text.data = some cand →
      jsonParse (String.mk cand) = none →
      extractFirstJsonObj text = none)
    ∧ (∀ text : String, firstDelimitedCandidate '{' '}' text.data = none →
      extractFirstJsonObj text = none)
    ∧ extractFirstJson "prefix [1,2,3] suffix" = some "[\n  1,\n  2,\n  3\n]"
    ∧ extractFirstJson "no json here" = none := by
  refine ⟨?_, ?_, ?_, ?_, ?_, ?_, rfl, rfl⟩
  · intro text cand j h1 h2
    simp only [extractFirstJson, h1, h2]
  · intro text cand h1 h2
    simp only [extractFirstJson, h1, h2]
  · intro text h1
    simp only [extractFirstJson, h1]
  · intro text cand j h1 h2
    simp only [extractFirstJsonObj, h1, h2, Option.map_some']
  · intro text cand h1 h2
    simp only [extractFirstJsonObj, h1, h2, Option.map_none']
  · intro text h1
    simp only [extractFirstJsonObj, h1]

/-- witness for C5: the general array clause applied at a concrete
input. -/
theorem extractFirstJson_spec_witness :
    extractFirstJson "go [true] x" = some "[\n  true\n]" :=
  extractFirstJson_spec.1 "go [true] x" ("[true]".data) (Json.arr [Json.bool true]) rfl rfl

/-- C6: on "[[1,2],[3,4]]" — a single valid JSON array whose first
closing bracket sits inside a nested array — the non-greedy match
truncates to "[[1,2]", that candidate fails to parse, the object
fallback finds no brace, and extractFirstJson returns null rather than
the outer literal. -/
theorem extractFirstJson_nested_truncation :
    jsonParse "[[1,2],[3,4]]" =
      some (Json.arr [Json.arr [Json.num 1, Json.num 2],
                      Json.arr [Json.num 3, Json.num 4]])
    ∧ firstDelimitedCandidate '[' ']' ("[[1,2],[3,4]]").data = some ("[[1,2]").data
    ∧ jsonParse "[[1,2]" = none
    ∧ extractFirstJson "[[1,2],[3,4]]" = none :=
  ⟨rfl, rfl, rfl, rfl⟩


/-! ### C2, C3 -/

theorem optMapM_eq_map_of_isSome {α : Type} (g : α → Option String) :
    ∀ l : List α, (∀ a ∈ l, (g a).isSome = true) →
      optMapM g l = some (l.map (fun a => (g a).getD "")) := by
  intro l
  induction l with
  | nil => intro _; rfl
  | cons a l ih =>
    intro h
    have ha : (g a).isSome = true := h a (List.mem_cons_self a l)
    obtain ⟨b, hb⟩ := Option.isSome_iff_exists.mp ha
    have hl := ih (fun x hx => h x (List.mem_cons_of_mem a hx))
    simp [optMapM, hb, hl]

theorem optMapM_isSome_forall {α : Type} (g : α → Option String) :
    ∀ l : List α, (optMapM g l).isSome = true → ∀ a ∈ l, (g a).isSome = true := by
  intro l
  induction l with
  | nil => intro _ a ha; cases ha
  | cons a l ih =>
    intro h x hx
    rcases hga : g a with _ | b
    · rw [optMapM, hga] at h; cases h
    · cases hx with
      | head => simp [hga]
      | tail _ hx =>
        apply ih _ x hx
        rw [optMapM, hga] at h
        cases hl : optMapM g l
        · rw [hl] at h; cases h
        · rfl

theorem formatField_isSome_of_not_array (entries : List (String × Json)) (f : String)
    (h : fieldIsArray (Json.obj entries) f = false) :
    (formatField (Json.obj entries) f).isSome = true := by
  unfold formatField
  unfold fieldIsArray at h
  by_cases hf : f = ""
  · simp [hf, jsFalsy]
  · simp only [jsFalsy, Bool.false_or, hf]
    cases hg : jsGetField (Json.obj entries) f with
    | none => simp [hg]
    | some v =>
      rw [hg] at h
      cases v <;> simp_all

/-- C2: when the extracted JSON parses to a single (non-null) object and
a field list is configured, the decomposition emits one fragment per
element of each array-valued field (one level of flattening), each
rendered as "f: <element>" (objects JSON-stringified, primitives
string-coerced); when no field's value is an array it emits exactly one
fragment concatenating the formatField renderings of all listed fields
with newlines. In particular {"results":["a","b"]} with field list
["results"] yields exactly ["results: a", "results: b"] and the
fallback is not taken. -/
theorem decompose_object_fanout :
    (∀ (extracted : String) (entries : List (String × Json)) (fieldList : List String),
      jsonParse extracted = some (Json.obj entries) →
      fieldList ≠ [] →
      decompose extracted fieldList =
        if fieldList.any (fun f => fieldIsArray (Json.obj entries) f) then
          fieldList.flatMap (fun f =>
            match jsGetField (Json.obj entries) f with
            | some (Json.arr vs) => vs.map (fun vv => fanElement f vv)
            | _ => [])
        else
          [String.intercalate "\n"
            (fieldList.map (fun f => (formatField (Json.obj entries) f).getD ""))])
    ∧ splitFields "results" = ["results"]
    ∧ decompose "\x7b\"results\":[\"a\",\"b\"]\x7d" ["results"] = ["results: a", "results: b"]
    ∧ fieldIsArray (Json.obj [("results", Json.arr [Json.str "a", Json.str "b"])]) "results"
        = true := by
  refine ⟨?_, rfl, rfl, rfl⟩
  intro extracted entries fieldList hparse _
  by_cases harr : fieldList.any (fun f => fieldIsArray (Json.obj entries) f)
  · simp only [decompose, hparse, harr, if_true]
  · have hall : ∀ f ∈ fieldList, (formatField (Json.obj entries) f).isSome = true := by
      intro f hf
      apply formatField_isSome_of_not_array
      rcases hb : fieldIsArray (Json.obj entries) f with _ | _
      · rfl
      · exact absurd (List.any_eq_true.mpr ⟨f, hf, hb⟩) harr
    have hmap := optMapM_eq_map_of_isSome (formatField (Json.obj entries)) fieldList hall
    simp only [decompose, hparse, harr, if_false, Bool.false_eq_true, hmap]

/-- witness for C2: the general object clause applied at the concrete
input of the claim. -/
theorem decompose_object_fanout_witness :
    decompose "\x7b\"results\":[\"a\",\"b\"]\x7d" ["results"] =
      (if ["results"].any (fun f =>
            fieldIsArray (Json.obj [("results", Json.arr [Json.str "a", Json.str "b"])]) f) then
        ["results"].flatMap (fun f =>
          match jsGetField (Json.obj [("results", Json.arr [Json.str "a", Json.str "b"])]) f with
          | some (Json.arr vs) => vs.map (fun vv => fanElement f vv)
          | _ => [])
      else
        [String.intercalate "\n" (["results"].map (fun f =>
          (formatField (Json.obj [("results", Json.arr [Json.str "a", Json.str "b"])]) f).getD ""))]) :=
  decompose_object_fanout.1 "\x7b\"results\":[\"a\",\"b\"]\x7d"
    [("results", Json.arr [Json.str "a", Json.str "b"])] ["results"] rfl (by decide)

theorem decomposeArrayLoop_eq_filterMap (fieldList : List String) (extracted : String) :
    ∀ (items : List Json) (acc : List String),
      (∀ item ∈ items, (optMapM (formatField item) fieldList).isSome = true) →
      decomposeArrayLoop fieldList extracted items acc =
        acc ++ items.filterMap (fun item =>
          let t := String.intercalate "\n"
            (fieldList.map (fun f => (formatField item f).getD ""))
          if jsTrimString t ≠ "" then some t else none) := by
  intro items
  induction items with
  | nil => intro acc _; simp [decomposeArrayLoop]
  | cons item rest ih =>
    intro acc h
    have hitem : (optMapM (formatField item) fieldList).isSome = true :=
      h item (List.mem_cons_self item rest)
    have hallf : ∀ f ∈ fieldList, (formatField item f).isSome = true :=
      optMapM_isSome_forall (formatField item) fieldList hitem
    have hmap := optMapM_eq_map_of_isSome (formatField item) fieldList hallf
    have hrec := fun acc2 => ih acc2 (fun it hit => h it (List.mem_cons_of_mem item hit))
    by_cases hz : jsTrimString (String.intercalate "\n"
        (fieldList.map (fun f => (formatField item f).getD ""))) = ""
    · simp only [decomposeArrayLoop, hmap, List.filterMap_cons, hz, ne_eq,
        not_true_eq_false, if_false, ite_false, hrec]
    · simp only [decomposeArrayLoop, hmap, List.filterMap_cons, hz, ne_eq,
        not_false_eq_true, if_true, ite_true, hrec]
      simp

/-- C3: when the extracted JSON parses to an array and a field list is
configured (and no rendering raises, the error path §7(d) documents
separately), the decomposition builds one fragment per array element —
the newline-joined formatField renderings of the fields in the supplied
order — skipping any fragment that is empty or whitespace-only after
trimming. In particular [{"name":"p1"},{"name":"p2"}] with field list
["name"] yields exactly ["name: p1", "name: p2"]. -/
theorem decompose_array_elements :
    (∀ (extracted : String) (items : List Json) (fieldList : List String),
      jsonParse extracted = some (Json.arr items) →
      fieldList ≠ [] →
      (∀ item ∈ items, (optMapM (formatField item) fieldList).isSome = true) →
      decompose extracted fieldList =
        items.filterMap (fun item =>
          let t := String.intercalate "\n"
            (fieldList.map (fun f => (formatField item f).getD ""))
          if jsTrimString t ≠ "" then some t else none))
    ∧ splitFields "name" = ["name"]
    ∧ decompose "[\x7b\"name\":\"p1\"\x7d,\x7b\"name\":\"p2\"\x7d]" ["name"] = ["name: p1", "name: p2"] := by
  refine ⟨?_, rfl, rfl⟩
  intro extracted items fieldList hparse _ hsome
  simp only [decompose, hparse]
  rw [decomposeArrayLoop_eq_filterMap fieldList extracted items [] hsome]
  simp

/-- witness for C3: the general array clause applied at the concrete
input of the claim. -/
theorem decompose_array_elements_witness :
    decompose "[\x7b\"name\":\"p1\"\x7d,\x7b\"name\":\"p2\"\x7d]" ["name"] =
      ([Json.obj [("name", Json.str "p1")], Json.obj [("name", Json.str "p2")]].filterMap
        (fun item =>
          let t := String.intercalate "\n"
            (["name"].map (fun f => (formatField item f).getD ""))
          if jsTrimString t ≠ "" then some t else none)) :=
  decompose_array_elements.1 "[\x7b\"name\":\"p1\"\x7d,\x7b\"name\":\"p2\"\x7d]"
    [Json.obj [("name", Json.str "p1")], Json.obj [("name", Json.str "p2")]] ["name"]
    rfl (by decide)
    (by
      intro item h
      rcases List.mem_cons.mp h with rfl | h2
      · rfl
      · rcases List.mem_cons.mp h2 with rfl | h3
        · rfl
        · cases h3)

/-! ### C7 -/

theorem foldl_unshift_eq (now : Nat) :
    ∀ (texts : List String) (h : List GroqNodeHistoryEntry),
      texts.foldl (fun acc t => { text := t, timestamp := now } :: acc) h =
        (texts.map (fun t => ({ text := t, timestamp := now } : GroqNodeHistoryEntry))).reverse ++ h := by
  intro texts
  induction texts with
  | nil => intro h; simp
  | cons t ts ih =>
    intro h
    simp only [List.foldl_cons, List.map_cons, List.reverse_cons, ih]
    simp

theorem capHistory_cons_take (x : GroqNodeHistoryEntry) (l : List GroqNodeHistoryEntry) :
    capHistory (x :: l.take 100) = (x :: l).take 100 := by
  unfold capHistory
  by_cases hl : l.length ≤ 99
  · have h1 : l.take 100 = l := List.take_of_length_le (by omega)
    have h2 : l.take 99 = l := List.take_of_length_le (by omega)
    simp [h1, h2, List.take_succ_cons]
  · have h1 : (l.take 100).length = 100 := by
      rw [List.length_take]
      omega
    have hcond : (x :: l.take 100).length > 100 := by simp [h1]
    rw [if_pos hcond]
    simp only [List.take_succ_cons]
    rw [List.take_take]
    norm_num

theorem historySeqInsert_take (now : Nat) :
    ∀ (texts pre : List String),
      historySeqInsert
        (((pre.map (fun t => ({ text := t, timestamp := now } : GroqNodeHistoryEntry))).reverse).take 100)
        texts now =
      ((((pre ++ texts).map (fun t => ({ text := t, timestamp := now } : GroqNodeHistoryEntry))).reverse).take 100) := by
  intro texts
  induction texts with
  | nil => intro pre; simp [historySeqInsert]
  | cons t ts ih =>
    intro pre
    have hstep : historyAppendBatch
        (((pre.map (fun t => ({ text := t, timestamp := now } : GroqNodeHistoryEntry))).reverse).take 100)
        [t] now =
        ((((pre ++ [t]).map (fun t => ({ text := t, timestamp := now } : GroqNodeHistoryEntry))).reverse).take 100) := by
      unfold historyAppendBatch
      simp only [List.foldl_cons, List.foldl_nil, List.map_append, List.map_cons,
        List.map_nil, List.reverse_append, List.reverse_cons, List.reverse_nil,
        List.nil_append, List.cons_append]
      exact capHistory_cons_take _ _
    have : historySeqInsert
        (((pre.map (fun t => ({ text := t, timestamp := now } : GroqNodeHistoryEntry))).reverse).take 100)
        (t :: ts) now =
        historySeqInsert
          ((((pre ++ [t]).map (fun t => ({ text := t, timestamp := now } : GroqNodeHistoryEntry))).reverse).take 100)
          ts now := by
      unfold historySeqInsert
      simp only [List.foldl_cons]
      rw [← hstep]
    rw [this, ih (pre ++ [t])]
    simp

/-- C7: history insertion keeps the capped newest-first invariant: a
batch prepends its fragments (newest first) and then truncates to at
most 100 entries dropping the oldest; the result never exceeds 100
entries; sequentially inserting texts into an empty history keeps the
100 most recent in newest-first order; with 101 sequential insertions
exactly the first-inserted entry is discarded. -/
theorem history_cap_spec :
    (∀ (h : List GroqNodeHistoryEntry) (texts : List String) (now : Nat),
      historyAppendBatch h texts now =
        capHistory ((texts.map (fun t => ({ text := t, timestamp := now } : GroqNodeHistoryEntry))).reverse ++ h))
    ∧ (∀ (h : List GroqNodeHistoryEntry) (texts : List String) (now : Nat),
      (historyAppendBatch h texts now).length ≤ 100)
    ∧ (∀ (texts : List String) (now : Nat),
      historySeqInsert [] texts now =
        ((texts.map (fun t => ({ text := t, timestamp := now } : GroqNodeHistoryEntry))).reverse).take 100)
    ∧ (∀ (texts : List String) (now : Nat), texts.length = 101 →
      historySeqInsert [] texts now =
        (texts.drop 1).reverse.map (fun t => ({ text := t, timestamp := now } : GroqNodeHistoryEntry))) := by
  have hbatch : ∀ (h : List GroqNodeHistoryEntry) (texts : List String) (now : Nat),
      historyAppendBatch h texts now =
        capHistory ((texts.map (fun t => ({ text := t, timestamp := now } : GroqNodeHistoryEntry))).reverse ++ h) := by
    intro h texts now
    unfold historyAppendBatch
    rw [foldl_unshift_eq]
  have hseq : ∀ (texts : List String) (now : Nat),
      historySeqInsert [] texts now =
        ((texts.map (fun t => ({ text := t, timestamp := now } : GroqNodeHistoryEntry))).reverse).take 100 := by
    intro texts now
    have := historySeqInsert_take now texts []
    simpa using this
  refine ⟨hbatch, ?_, hseq, ?_⟩
  · intro h texts now
    rw [hbatch]
    unfold capHistory
    split
    · simp
    · omega
  · intro texts now hlen
    rw [hseq]
    have hsplit : (texts.map (fun t => ({ text := t, timestamp := now } : GroqNodeHistoryEntry))).reverse =
        ((texts.drop 1).map (fun t => ({ text := t, timestamp := now } : GroqNodeHistoryEntry))).reverse ++
        ((texts.take 1).map (fun t => ({ text := t, timestamp := now } : GroqNodeHistoryEntry))).reverse := by
      conv_lhs => rw [← List.take_append_drop 1 texts]
      rw [List.map_append, List.reverse_append]
    rw [hsplit]
    have hlen2 : (((texts.drop 1).map (fun t => ({ text := t, timestamp := now } : GroqNodeHistoryEntry))).reverse).length = 100 := by
      simp [hlen]
    rw [← hlen2, List.take_left]
    simp

/-- witness for C7: the 101-insertion clause applied to 101 concrete
texts, and the batch clause applied to a concrete batch. -/
theorem history_cap_spec_witness :
    (((List.range 101).map (fun n => toString n)).length = 101)
    ∧ historySeqInsert [] ((List.range 101).map (fun n => toString n)) 7 =
        ((((List.range 101).map (fun n => toString n)).drop 1).reverse.map
          (fun t => ({ text := t, timestamp := 7 } : GroqNodeHistoryEntry))) :=
  ⟨by simp, history_cap_spec.2.2.2 ((List.range 101).map (fun n => toString n)) 7 (by simp)⟩

/-! ### C8 -/

theorem enumFrom_getElem? {α : Type} :
    ∀ (l : List α) (n k : Nat), (List.enumFrom n l)[k]? = l[k]?.map (fun a => (n + k, a)) := by
  intro l
  induction l with
  | nil => intro n k; simp
  | cons a t ih =>
    intro n k
    cases k with
    | zero => simp [List.enumFrom]
    | succ k =>
      simp only [List.enumFrom, List.getElem?_cons_succ, ih (n + 1) k]
      have : n + 1 + k = n + (k + 1) := by omega
      rw [this]

/-- C8: appending K fragments creates exactly K new text-type nodes at
x = anchor.x + anchor.width + 40 (identical for all), at
y = anchor.y + anchor.height - 60 + 130*idx (strictly increasing), each
300 wide and 120 high, and the pre-existing node entries are left as the
unchanged prefix of the node array. -/
theorem appendGroqNodes_spec :
    (∀ (nodes : List CanvasNode) (texts : List String) (anchor : CanvasNode)
        (ids : Nat → String),
      (appendGroqNodes nodes texts anchor ids).length = nodes.length + texts.length)
    ∧ (∀ (nodes : List CanvasNode) (texts : List String) (anchor : CanvasNode)
        (ids : Nat → String),
      (appendGroqNodes nodes texts anchor ids).take nodes.length = nodes)
    ∧ (∀ (nodes : List CanvasNode) (texts : List String) (anchor : CanvasNode)
        (ids : Nat → String) (k : Nat), k < texts.length →
      (appendGroqNodes nodes texts anchor ids)[nodes.length + k]? =
        some { id := ids k
               type := some "text"
               text := some (cleanFragment (texts.getD k ""))
               x := anchor.x + anchor.width + 40
               y := anchor.y + anchor.height - 60 + 130 * (k : Int)
               width := 300
               height := 120 })
    ∧ (∀ (nodes : List CanvasNode) (texts : List String) (anchor : CanvasNode)
        (ids : Nat → String) (k k2 : Nat) (n1 n2 : CanvasNode),
      k < k2 →
      (appendGroqNodes nodes texts anchor ids)[nodes.length + k]? = some n1 →
      (appendGroqNodes nodes texts anchor ids)[nodes.length + k2]? = some n2 →
      n1.x = n2.x ∧ n1.y < n2.y) := by
  have hget : ∀ (nodes : List CanvasNode) (texts : List String) (anchor : CanvasNode)
      (ids : Nat → String) (k : Nat), k < texts.length →
      (appendGroqNodes nodes texts anchor ids)[nodes.length + k]? =
        some (groqNewNode anchor ids k (texts.getD k "")) := by
    intro nodes texts anchor ids k hk
    unfold appendGroqNodes
    rw [List.getElem?_append_right (by omega)]
    have h1 : nodes.length + k - nodes.length = k := by omega
    rw [h1, List.getElem?_map]
    unfold List.enum
    rw [enumFrom_getElem?]
    have ht : texts[k]? = some (texts[k]) := List.getElem?_eq_getElem hk
    rw [ht]
    have hgetd : texts.getD k "" = texts[k] := by
      simp [List.getD, List.get?_eq_getElem?, ht]
    simp [hgetd, ht]
  refine ⟨?_, ?_, hget, ?_⟩
  · intro nodes texts anchor ids
    unfold appendGroqNodes
    simp
  · intro nodes texts anchor ids
    unfold appendGroqNodes
    exact List.take_left nodes _
  · intro nodes texts anchor ids k k2 n1 n2 hkk h1 h2
    by_cases hk : k < texts.length
    · by_cases hk2 : k2 < texts.length
      · rw [hget nodes texts anchor ids k hk] at h1
        rw [hget nodes texts anchor ids k2 hk2] at h2
        cases h1
        cases h2
        constructor
        · rfl
        · unfold groqNewNode
          simp only
          have : (130 : Int) * (k : Int) < 130 * (k2 : Int) := by
            have : (k : Int) < (k2 : Int) := by exact_mod_cast hkk
            omega
          omega
      · exfalso
        have hlen : (appendGroqNodes nodes texts anchor ids).length = nodes.length + texts.length := by
          unfold appendGroqNodes; simp
        obtain ⟨hb, -⟩ := List.getElem?_eq_some_iff.mp h2
        rw [hlen] at hb
        omega
    · exfalso
      have hlen : (appendGroqNodes nodes texts anchor ids).length = nodes.length + texts.length := by
        unfold appendGroqNodes; simp
      obtain ⟨hb, -⟩ := List.getElem?_eq_some_iff.mp h1
      rw [hlen] at hb
      omega

/-- witness for C8: the position clause and the monotonicity clause
applied at concrete nodes and fragments. -/
theorem appendGroqNodes_spec_witness :
    (appendGroqNodes
        [{ id := "old", x := 1, y := 2, width := 3, height := 4, type := some "text", text := some "t" }]
        ["f0", "f1"]
        { id := "g", x := 10, y := 20, width := 100, height := 50, type := some "group" }
        (fun i => toString i))[1 + 1]? =
      some { id := "1"
             type := some "text"
             text := some (cleanFragment "f1")
             x := (10 : Int) + 100 + 40
             y := (20 : Int) + 50 - 60 + 130 * (1 : Int)
             width := 300
             height := 120 } :=
  appendGroqNodes_spec.2.2.1
    [{ id := "old", x := 1, y := 2, width := 3, height := 4, type := some "text", text := some "t" }]
    ["f0", "f1"]
    { id := "g", x := 10, y := 20, width := 100, height := 50, type := some "group" }
    (fun i => toString i) 1 (by decide)

/-! ### C9 -/

/-- C9: group membership is inclusive bounding-box containment: a node
is in the filtered members exactly when it is a text node of the
document and node.x >= group.x, node.y >= group.y,
node.x+node.width <= group.x+group.width and
node.y+node.height <= group.y+group.height. A text node whose box
equals the group's is included; one extending 1 unit beyond any single
edge is excluded. -/
theorem groupTextNodes_spec :
    (∀ (nodes : List CanvasNode) (group n : CanvasNode),
      n ∈ groupTextNodes nodes group ↔
        (n ∈ nodes ∧ n.type = some "text" ∧ group.x ≤ n.x ∧ group.y ≤ n.y ∧
         n.x + n.width ≤ group.x + group.width ∧
         n.y + n.height ≤ group.y + group.height))
    ∧ nodeInGroup
        { id := "g", x := 10, y := 20, width := 100, height := 50, type := some "group" }
        { id := "n", x := 10, y := 20, width := 100, height := 50, type := some "text" } = true
    ∧ nodeInGroup
        { id := "g", x := 10, y := 20, width := 100, height := 50, type := some "group" }
        { id := "n", x := 9, y := 20, width := 101, height := 50, type := some "text" } = false
    ∧ nodeInGroup
        { id := "g", x := 10, y := 20, width := 100, height := 50, type := some "group" }
        { id := "n", x := 10, y := 19, width := 100, height := 51, type := some "text" } = false
    ∧ nodeInGroup
        { id := "g", x := 10, y := 20, width := 100, height := 50, type := some "group" }
        { id := "n", x := 10, y := 20, width := 101, height := 50, type := some "text" } = false
    ∧ nodeInGroup
        { id := "g", x := 10, y := 20, width := 100, height := 50, type := some "group" }
        { id := "n", x := 10, y := 20, width := 100, height := 51, type := some "text" } = false := by
  refine ⟨?_, by decide, by decide, by decide, by decide, by decide⟩
  intro nodes group n
  unfold groupTextNodes
  rw [List.mem_filter]
  unfold nodeInGroup
  simp only [Bool.and_eq_true, decide_eq_true_eq]
  tauto

/-- witness for C9: the membership clause applied at a concrete document
and group. -/
theorem groupTextNodes_spec_witness :
    { id := "n", x := 10, y := 20, width := 100, height := 50, type := some "text",
      text := some "hello" } ∈
      groupTextNodes
        [{ id := "n", x := 10, y := 20, width := 100, height := 50, type := some "text",
           text := some "hello" },
         { id := "m", x := 0, y := 0, width := 5, height := 5, type := some "text" }]
        { id := "g", x := 10, y := 20, width := 100, height := 50, type := some "group" } :=
  (groupTextNodes_spec.1 _ _ _).mpr
    ⟨List.mem_cons_self _ _, rfl, by decide, by decide, by decide, by decide⟩


/-! ### C10 -/

theorem findCloseRem_len :
    ∀ s r, findCloseRem s = some r → r.length + 2 ≤ s.length := by
  intro s
  induction s with
  | nil => intro r h; cases h
  | cons c t ih =>
    cases t with
    | nil => intro r h; cases h
    | cons c2 t2 =>
      intro r h
      unfold findCloseRem at h
      split at h
      · cases h
        simp
      · split at h
        · cases h
        · have := ih r h
          simp at this ⊢
          omega

theorem tryMatchFlag_shrink :
    ∀ s r, tryMatchFlag s = some r → r.length < s.length := by
  intro s r h
  unfold tryMatchFlag at h
  cases hd : dropLit ['{', '{', 'f', 'l', 'a', 'g', ':'] s with
  | none => rw [hd] at h; cases h
  | some r0 =>
    rw [hd] at h
    simp only [Option.bind_some, Option.some_bind] at h
    have h1 := dropLit_some_len hd
    have h2 := findCloseRem_len r0 r h
    simp at h1
    omega

theorem scanReplaceF_del_len_le (m : List Char → Option (List Char))
    (hm : ∀ s r, m s = some r → r.length < s.length) :
    ∀ (fuel : Nat) (s : List Char), s.length ≤ fuel →
      (scanReplaceF m [] fuel s).length ≤ s.length := by
  intro fuel
  induction fuel with
  | zero => intro s hs; simp [scanReplaceF]
  | succ fuel ih =>
    intro s hs
    cases s with
    | nil => simp [scanReplaceF]
    | cons c t =>
      unfold scanReplaceF
      cases hmc : m (c :: t) with
      | some rest =>
        have hlt := hm _ _ hmc
        have := ih rest (by simp at hlt hs ⊢; omega)
        simp only [List.nil_append]
        simp at hlt ⊢
        omega
      | none =>
        have := ih t (by simp at hs; omega)
        simp
        omega

theorem scanReplaceF_del_len_lt (m : List Char → Option (List Char))
    (hm : ∀ s r, m s = some r → r.length < s.length) :
    ∀ (fuel : Nat) (s : List Char), s.length ≤ fuel →
      hasMatchF m fuel s = true →
      (scanReplaceF m [] fuel s).length < s.length := by
  intro fuel
  induction fuel with
  | zero => intro s hs h; cases s <;> cases h
  | succ fuel ih =>
    intro s hs h
    cases s with
    | nil => cases h
    | cons c t =>
      unfold scanReplaceF
      cases hmc : m (c :: t) with
      | some rest =>
        have hlt := hm _ _ hmc
        have := scanReplaceF_del_len_le m hm fuel rest (by simp at hlt hs ⊢; omega)
        simp only [List.nil_append]
        omega
      | none =>
        unfold hasMatchF at h
        rw [hmc] at h
        simp at h
        have := ih t (by simp at hs; omega) h
        simp
        omega

theorem dropWhile_len_le (p : Char → Bool) :
    ∀ l : List Char, (l.dropWhile p).length ≤ l.length := by
  intro l
  induction l with
  | nil => simp
  | cons c t ih =>
    unfold List.dropWhile
    split
    · simp
      omega
    · simp

theorem jsTrimChars_len_le (s : List Char) : (jsTrimChars s).length ≤ s.length := by
  unfold jsTrimChars
  have h1 := dropWhile_len_le isJsTrimWs s
  have h2 := dropWhile_len_le isJsTrimWs (s.dropWhile isJsTrimWs).reverse
  simp at h2 ⊢
  omega

theorem cleanFragment_ne_of_marker (t : String) (h : hasFlagMarker t = true) :
    cleanFragment t ≠ t := by
  intro heq
  have hdata : jsTrimChars (stripFlags t.data) = t.data := congrArg String.data heq
  have hlt : (stripFlags t.data).length < t.data.length := by
    unfold stripFlags regReplace
    exact scanReplaceF_del_len_lt tryMatchFlag tryMatchFlag_shrink
      t.data.length t.data (le_refl _) h
  have hle : (jsTrimChars (stripFlags t.data)).length ≤ (stripFlags t.data).length :=
    jsTrimChars_len_le _
  rw [hdata] at hle
  omega

theorem getElem?_take_lt {α : Type} :
    ∀ (l : List α) (n i : Nat), i < n → (l.take n)[i]? = l[i]? := by
  intro l
  induction l with
  | nil => intro n i _; simp
  | cons a t ih =>
    intro n i hi
    cases n with
    | zero => omega
    | succ n =>
      cases i with
      | zero => simp
      | succ i =>
        simp only [List.take_succ_cons, List.getElem?_cons_succ]
        exact ih n i (by omega)

theorem capHistory_getElem (l : List GroqNodeHistoryEntry) (pos : Nat) (hpos : pos < 100) :
    (capHistory l)[pos]? = l[pos]? := by
  unfold capHistory
  split
  · exact getElem?_take_lt l 100 pos hpos
  · rfl

theorem appendGroqNodes_getElem :
    ∀ (nodes : List CanvasNode) (texts : List String) (anchor : CanvasNode)
      (ids : Nat → String) (k : Nat), k < texts.length →
      (appendGroqNodes nodes texts anchor ids)[nodes.length + k]? =
        some (groqNewNode anchor ids k (texts.getD k "")) := by
  intro nodes texts anchor ids k hk
  unfold appendGroqNodes
  rw [List.getElem?_append_right (by omega)]
  have h1 : nodes.length + k - nodes.length = k := by omega
  rw [h1, List.getElem?_map]
  unfold List.enum
  rw [enumFrom_getElem?]
  have ht : texts[k]? = some (texts[k]) := List.getElem?_eq_getElem hk
  rw [ht]
  have hgetd : texts.getD k "" = texts[k] := by
    simp [List.getD, List.get?_eq_getElem?, ht]
  simp [hgetd, ht]

theorem historyAppendBatch_getElem :
    ∀ (h : List GroqNodeHistoryEntry) (texts : List String) (now k : Nat),
      k < texts.length → texts.length - 1 - k < 100 →
      (historyAppendBatch h texts now)[texts.length - 1 - k]? =
        some { text := texts.getD k "", timestamp := now } := by
  intro h texts now k hk hpos
  unfold historyAppendBatch
  rw [foldl_unshift_eq]
  rw [capHistory_getElem _ _ hpos]
  have hlenr : texts.length - 1 - k <
      ((texts.map (fun t => ({ text := t, timestamp := now } : GroqNodeHistoryEntry))).reverse).length := by
    simp
    omega
  rw [List.getElem?_append, if_pos hlenr]
  rw [List.getElem?_reverse (by simp; omega)]
  have hidx : (texts.map (fun t => ({ text := t, timestamp := now } : GroqNodeHistoryEntry))).length - 1 -
      (texts.length - 1 - k) = k := by
    simp
    omega
  rw [hidx, List.getElem?_map]
  have ht : texts[k]? = some (texts[k]) := List.getElem?_eq_getElem hk
  have hgetd : texts.getD k "" = texts[k] := by
    simp [List.getD, List.get?_eq_getElem?, ht]
  rw [ht, hgetd]
  rfl

/-- C10: the {{flag: ...}} stripping and trim are applied only to the
text stored in the appended canvas node; the history entry created for
the same fragment stores the original fragment text; hence for any
fragment in which the marker pattern matches, the node's text and the
history entry's text differ. -/
theorem groqPostEffects_clean_spec :
    (∀ (nodes : List CanvasNode) (history : List GroqNodeHistoryEntry)
        (texts : List String) (anchor : CanvasNode) (ids : Nat → String) (now k : Nat),
      k < texts.length →
      ((groqPostEffects nodes history texts anchor ids now).1[nodes.length + k]?).map
          CanvasNode.text =
        some (some (cleanFragment (texts.getD k ""))))
    ∧ (∀ (nodes : List CanvasNode) (history : List GroqNodeHistoryEntry)
        (texts : List String) (anchor : CanvasNode) (ids : Nat → String) (now k : Nat),
      k < texts.length → texts.length - 1 - k < 100 →
      ((groqPostEffects nodes history texts anchor ids now).2[texts.length - 1 - k]?).map
          GroqNodeHistoryEntry.text =
        some (texts.getD k ""))
    ∧ (∀ t : String, hasFlagMarker t = true → cleanFragment t ≠ t) := by
  refine ⟨?_, ?_, cleanFragment_ne_of_marker⟩
  · intro nodes history texts anchor ids now k hk
    unfold groqPostEffects
    simp only
    rw [appendGroqNodes_getElem nodes texts anchor ids k hk]
    rfl
  · intro nodes history texts anchor ids now k hk hpos
    unfold groqPostEffects
    simp only
    rw [historyAppendBatch_getElem history texts now k hk hpos]
    rfl

/-- witness for C10: a concrete fragment containing a marker — the
appended node stores the stripped text, the history entry the original,
and the two differ. -/
theorem groqPostEffects_clean_spec_witness :
    (((groqPostEffects [] [] ["x {{flag:q}} y"]
        { id := "g", x := 0, y := 0, width := 10, height := 10 }
        (fun _ => "newid") 5).1[(0 : Nat) + 0]?).map CanvasNode.text =
      some (some (cleanFragment "x {{flag:q}} y")))
    ∧ (((groqPostEffects [] [] ["x {{flag:q}} y"]
        { id := "g", x := 0, y := 0, width := 10, height := 10 }
        (fun _ => "newid") 5).2[(0 : Nat)]?).map GroqNodeHistoryEntry.text =
      some "x {{flag:q}} y")
    ∧ hasFlagMarker "x {{flag:q}} y" = true
    ∧ cleanFragment "x {{flag:q}} y" ≠ "x {{flag:q}} y"
    ∧ cleanFragment "x {{flag:q}} y" = "x  y" := by
  refine ⟨?_, ?_, by decide, groqPostEffects_clean_spec.2.2 "x {{flag:q}} y" (by decide), by decide⟩
  · exact groqPostEffects_clean_spec.1 [] [] ["x {{flag:q}} y"]
      { id := "g", x := 0, y := 0, width := 10, height := 10 } (fun _ => "newid") 5 0 (by decide)
  · have := groqPostEffects_clean_spec.2.1 [] [] ["x {{flag:q}} y"]
      { id := "g", x := 0, y := 0, width := 10, height := 10 } (fun _ => "newid") 5 0
      (by decide) (by decide)
    simpa using this

/-! ### C4: character classes and decimal indices -/

theorem jsRegexWs_ne_lbrace {c : Char} (h : jsRegexWs c = true) : c ≠ '{' := by
  intro heq; subst heq; exact absurd h (by decide)

theorem jsRegexWs_ne_rbrace {c : Char} (h : jsRegexWs c = true) : c ≠ '}' := by
  intro heq; subst heq; exact absurd h (by decide)

theorem jsRegexWs_ne_t {c : Char} (h : jsRegexWs c = true) : c ≠ 't' := by
  intro heq; subst heq; exact absurd h (by decide)

theorem isDigitCh_ne_lbrace {c : Char} (h : isDigitCh c = true) : c ≠ '{' := by
  intro heq; subst heq; exact absurd h (by decide)

theorem isDigitCh_ne_rbrace {c : Char} (h : isDigitCh c = true) : c ≠ '}' := by
  intro heq; subst heq; exact absurd h (by decide)

theorem isDigitCh_not_ws {c : Char} (h : isDigitCh c = true) : jsRegexWs c = false := by
  simp only [isDigitCh, Bool.and_eq_true, decide_eq_true_eq] at h
  by_contra hw
  simp only [Bool.not_eq_false, jsRegexWs, Bool.or_eq_true, decide_eq_true_eq] at hw
  omega

theorem jsRegexWs_not_digit {c : Char} (h : jsRegexWs c = true) : isDigitCh c = false := by
  by_contra hd
  simp only [Bool.not_eq_false] at hd
  rw [isDigitCh_not_ws hd] at h
  cases h

def digitsVal (l : List Char) : Nat :=
  l.foldl (fun a c => 10 * a + (c.toNat - 48)) 0

theorem digitsVal_append_singleton (xs : List Char) (c : Char) :
    digitsVal (xs ++ [c]) = 10 * digitsVal xs + (c.toNat - 48) := by
  unfold digitsVal
  rw [List.foldl_append]
  rfl

theorem digitChar_toNat {n : Nat} (h : n < 10) : (digitChar n).toNat = 48 + n := by
  interval_cases n <;> decide

theorem isDigitCh_digitChar {n : Nat} (h : n < 10) : isDigitCh (digitChar n) = true := by
  interval_cases n <;> decide

theorem natDigitsF_val : ∀ (fuel n : Nat), n < fuel →
    digitsVal (natDigitsF fuel n) = n := by
  intro fuel
  induction fuel with
  | zero => intro n h; omega
  | succ fuel ih =>
    intro n h
    unfold natDigitsF
    by_cases h10 : n < 10
    · rw [if_pos h10]
      unfold digitsVal
      simp [List.foldl_cons, digitChar_toNat h10]
    · rw [if_neg h10]
      rw [digitsVal_append_singleton]
      have hdiv : n / 10 < fuel := by
        have := Nat.div_lt_self (by omega : 0 < n) (by omega : 1 < 10)
        omega
      rw [ih (n / 10) hdiv]
      have hmod : n % 10 < 10 := Nat.mod_lt n (by omega)
      rw [digitChar_toNat hmod]
      omega

theorem natDigits_val (n : Nat) : digitsVal (natDigits n) = n :=
  natDigitsF_val (n + 1) n (by omega)

theorem natDigits_inj {a b : Nat} (h : natDigits a = natDigits b) : a = b := by
  have := natDigits_val a
  rw [h, natDigits_val] at this
  omega

theorem natDigitsF_digits : ∀ (fuel n : Nat), n < fuel →
    (natDigitsF fuel n).all isDigitCh = true := by
  intro fuel
  induction fuel with
  | zero => intro n h; omega
  | succ fuel ih =>
    intro n h
    unfold natDigitsF
    by_cases h10 : n < 10
    · rw [if_pos h10]
      simp [isDigitCh_digitChar h10]
    · rw [if_neg h10]
      rw [List.all_append]
      have hdiv : n / 10 < fuel := by
        have := Nat.div_lt_self (by omega : 0 < n) (by omega : 1 < 10)
        omega
      have hmod : n % 10 < 10 := Nat.mod_lt n (by omega)
      simp [ih (n / 10) hdiv, isDigitCh_digitChar hmod]

theorem natDigits_digits (n : Nat) : (natDigits n).all isDigitCh = true :=
  natDigitsF_digits (n + 1) n (by omega)

theorem natDigitsF_ne_nil : ∀ (fuel n : Nat), n < fuel → natDigitsF fuel n ≠ [] := by
  intro fuel
  induction fuel with
  | zero => intro n h; omega
  | succ fuel _ =>
    intro n _
    unfold natDigitsF
    by_cases h10 : n < 10
    · simp [h10]
    · rw [if_neg h10]
      simp

theorem natDigits_ne_nil (n : Nat) : natDigits n ≠ [] :=
  natDigitsF_ne_nil (n + 1) n (by omega)

/-! ### C4: dropWhile and takeWhile helpers -/

theorem dropWhile_all_append (p : Char → Bool) :
    ∀ (l l2 : List Char), l.all p = true →
      (l ++ l2).dropWhile p = l2.dropWhile p := by
  intro l
  induction l with
  | nil => intro l2 _; rfl
  | cons c t ih =>
    intro l2 h
    simp only [List.all_cons, Bool.and_eq_true] at h
    simp only [List.cons_append, List.dropWhile_cons, h.1, if_true]
    exact ih l2 h.2

theorem dropWhile_cons_neg (p : Char → Bool) (c : Char) (t : List Char)
    (h : p c = false) : (c :: t).dropWhile p = c :: t := by
  simp [List.dropWhile_cons, h]

theorem takeWhile_all (p : Char → Bool) :
    ∀ l : List Char, (l.takeWhile p).all p = true := by
  intro l
  induction l with
  | nil => rfl
  | cons c t ih =>
    by_cases hc : p c
    · simp [List.takeWhile_cons, hc, ih]
    · simp [List.takeWhile_cons, hc]

/-! ### C4: tryMatchGroup analysis -/

theorem tryMatchGroup_variant (d w1 w2 rest : List Char)
    (h1 : w1.all jsRegexWs = true) (h2 : w2.all jsRegexWs = true) :
    tryMatchGroup d (wsVariant d w1 w2 ++ rest) = some rest := by
  unfold tryMatchGroup wsVariant
  have hb : dropLit ['{', '{']
      (('{' :: '{' :: (w1 ++ 't' :: 'e' :: 'x' :: 't' :: (d ++ w2 ++ ['}', '}']))) ++ rest) =
      some ((w1 ++ 't' :: 'e' :: 'x' :: 't' :: (d ++ w2 ++ ['}', '}'])) ++ rest) := by
    exact dropLit_self ['{', '{'] _
  rw [hb]
  simp only [Option.some_bind]
  have hshape : (w1 ++ 't' :: 'e' :: 'x' :: 't' :: (d ++ w2 ++ ['}', '}'])) ++ rest =
      w1 ++ ('t' :: 'e' :: 'x' :: 't' :: (d ++ (w2 ++ ('}' :: '}' :: rest)))) := by
    simp
  rw [hshape, dropWhile_all_append jsRegexWs w1 _ h1,
    dropWhile_cons_neg jsRegexWs 't' _ (by decide)]
  have htx : dropLit ('t' :: 'e' :: 'x' :: 't' :: d)
      ('t' :: 'e' :: 'x' :: 't' :: (d ++ (w2 ++ ('}' :: '}' :: rest)))) =
      some (w2 ++ ('}' :: '}' :: rest)) :=
    dropLit_self ('t' :: 'e' :: 'x' :: 't' :: d) (w2 ++ ('}' :: '}' :: rest))
  rw [htx]
  simp only [Option.some_bind]
  rw [dropWhile_all_append jsRegexWs w2 _ h2,
    dropWhile_cons_neg jsRegexWs '}' _ (by decide)]
  exact dropLit_self ['}', '}'] rest

theorem groupTail_mismatch :
    ∀ (d d2 : List Char), d.all isDigitCh = true → d2.all isDigitCh = true → d ≠ d2 →
      ∀ (w2 rest : List Char), w2.all jsRegexWs = true →
      (dropLit d (d2 ++ (w2 ++ ('}' :: '}' :: rest)))).bind
        (fun r2 => dropLit ['}', '}'] (r2.dropWhile jsRegexWs)) = none := by
  intro d
  induction d with
  | nil =>
    intro d2 _ hd2 hne w2 rest hw2
    cases d2 with
    | nil => exact absurd rfl hne
    | cons e d2t =>
      simp only [List.all_cons, Bool.and_eq_true] at hd2
      simp only [dropLit, Option.some_bind, List.cons_append]
      rw [dropWhile_cons_neg jsRegexWs e _ (isDigitCh_not_ws hd2.1)]
      simp [dropLit, isDigitCh_ne_rbrace hd2.1 ]
  | cons a dt ih =>
    intro d2 hd hd2 hne w2 rest hw2
    simp only [List.all_cons, Bool.and_eq_true] at hd
    cases d2 with
    | nil =>
      simp only [List.nil_append]
      cases w2 with
      | nil =>
        simp only [List.nil_append, dropLit]
        rw [if_neg]
        · rfl
        · exact fun heq => absurd heq.symm (isDigitCh_ne_rbrace hd.1)
      | cons wc w2t =>
        simp only [List.all_cons, Bool.and_eq_true] at hw2
        simp only [List.cons_append, dropLit]
        rw [if_neg]
        · rfl
        · intro heq
          rw [← heq] at hd
          rw [jsRegexWs_not_digit hw2.1] at hd
          exact absurd hd.1 (by decide)
    | cons b d2t =>
      simp only [List.all_cons, Bool.and_eq_true] at hd2
      by_cases hab : b = a
      · subst hab
        simp only [List.cons_append, dropLit, if_pos rfl]
        exact ih d2t hd.2 hd2.2 (fun h => hne (by rw [h])) w2 rest hw2
      · simp [List.cons_append, dropLit, hab]

theorem tryMatchGroup_variant_ne (d d2 w1 w2 rest : List Char)
    (hd : d.all isDigitCh = true) (hd2 : d2.all isDigitCh = true) (hne : d ≠ d2)
    (h1 : w1.all jsRegexWs = true) (h2 : w2.all jsRegexWs = true) :
    tryMatchGroup d (wsVariant d2 w1 w2 ++ rest) = none := by
  unfold tryMatchGroup wsVariant
  have hb : dropLit ['{', '{']
      (('{' :: '{' :: (w1 ++ 't' :: 'e' :: 'x' :: 't' :: (d2 ++ w2 ++ ['}', '}']))) ++ rest) =
      some ((w1 ++ 't' :: 'e' :: 'x' :: 't' :: (d2 ++ w2 ++ ['}', '}'])) ++ rest) :=
    dropLit_self ['{', '{'] _
  rw [hb]
  simp only [Option.some_bind]
  have hshape : (w1 ++ 't' :: 'e' :: 'x' :: 't' :: (d2 ++ w2 ++ ['}', '}'])) ++ rest =
      w1 ++ ('t' :: 'e' :: 'x' :: 't' :: (d2 ++ (w2 ++ ('}' :: '}' :: rest)))) := by
    simp
  rw [hshape, dropWhile_all_append jsRegexWs w1 _ h1,
    dropWhile_cons_neg jsRegexWs 't' _ (by decide)]
  have hsplit : dropLit ('t' :: 'e' :: 'x' :: 't' :: d)
      ('t' :: 'e' :: 'x' :: 't' :: (d2 ++ (w2 ++ ('}' :: '}' :: rest)))) =
      dropLit d (d2 ++ (w2 ++ ('}' :: '}' :: rest))) := by
    simp [dropLit]
  rw [hsplit]
  exact groupTail_mismatch d d2 hd hd2 hne w2 rest h2

theorem tryMatchGroup_nil (d : List Char) : tryMatchGroup d [] = none := rfl

theorem tryMatchGroup_not_lbrace (d : List Char) (c : Char) (t : List Char)
    (h : c ≠ '{') : tryMatchGroup d (c :: t) = none := by
  unfold tryMatchGroup
  simp [dropLit, h]

theorem tryMatchGroup_second_not_lbrace (d : List Char) (c : Char) (t : List Char)
    (h : c ≠ '{') : tryMatchGroup d ('{' :: c :: t) = none := by
  unfold tryMatchGroup
  simp [dropLit, h]

theorem tryMatchGroup_shrink (d : List Char) :
    ∀ s r, tryMatchGroup d s = some r → r.length < s.length := by
  intro s r h
  unfold tryMatchGroup at h
  cases hb : dropLit ['{', '{'] s with
  | none => rw [hb] at h; cases h
  | some r0 =>
    rw [hb] at h
    simp only [Option.some_bind] at h
    cases ht : dropLit ('t' :: 'e' :: 'x' :: 't' :: d) (r0.dropWhile jsRegexWs) with
    | none => rw [ht] at h; cases h
    | some r2 =>
      rw [ht] at h
      simp only [Option.some_bind] at h
      have l1 := dropLit_some_len hb
      have l2 := dropLit_some_len ht
      have l3 := dropLit_some_len h
      have l4 := dropWhile_len_le jsRegexWs r0
      have l5 := dropWhile_len_le jsRegexWs r2
      simp at l1 l2 l3
      omega

theorem tryMatchGroup_shape (d : List Char) (s r : List Char)
    (h : tryMatchGroup d s = some r) :
    ∃ w1 w2, w1.all jsRegexWs = true ∧ w2.all jsRegexWs = true ∧
      s = wsVariant d w1 w2 ++ r := by
  unfold tryMatchGroup at h
  cases hb : dropLit ['{', '{'] s with
  | none => rw [hb] at h; cases h
  | some r0 =>
    rw [hb] at h
    simp only [Option.some_bind] at h
    cases ht : dropLit ('t' :: 'e' :: 'x' :: 't' :: d) (r0.dropWhile jsRegexWs) with
    | none => rw [ht] at h; cases h
    | some r2 =>
      rw [ht] at h
      simp only [Option.some_bind] at h
      refine ⟨r0.takeWhile jsRegexWs, r2.takeWhile jsRegexWs,
        takeWhile_all jsRegexWs r0, takeWhile_all jsRegexWs r2, ?_⟩
      have hs : s = '{' :: '{' :: r0 := by
        have := (dropLit_eq_some_iff ['{', '{'] s r0).mp hb
        simpa using this
      have hr0 : r0 = r0.takeWhile jsRegexWs ++ ('t' :: 'e' :: 'x' :: 't' :: d) ++ r2 := by
        have hd2 := (dropLit_eq_some_iff _ _ _).mp ht
        conv_lhs => rw [← @List.takeWhile_append_dropWhile _ jsRegexWs r0]
        rw [hd2]
        simp
      have hr2 : r2 = r2.takeWhile jsRegexWs ++ ('}' :: '}' :: r) := by
        have hd3 := (dropLit_eq_some_iff _ _ _).mp h
        conv_lhs => rw [← @List.takeWhile_append_dropWhile _ jsRegexWs r2]
        rw [hd3]
        simp
      rw [hs]
      conv_lhs => rw [hr0, hr2]
      unfold wsVariant
      simp

/-! ### C4: fuel-free view of the replace scan -/

def scanSpec (m : List Char → Option (List Char))
    (hm : ∀ s r, m s = some r → r.length < s.length) (repl : List Char) :
    List Char → List Char
  | [] => []
  | c :: t =>
    match hmt : m (c :: t) with
    | some rest => repl ++ scanSpec m hm repl rest
    | none => c :: scanSpec m hm repl t
termination_by s => s.length
decreasing_by
  · exact hm _ _ hmt
  · simp

theorem scanSpec_nil (m : List Char → Option (List Char))
    (hm : ∀ s r, m s = some r → r.length < s.length) (repl : List Char) :
    scanSpec m hm repl [] = [] := by
  rw [scanSpec]

theorem scanSpec_cons_some (m : List Char → Option (List Char))
    (hm : ∀ s r, m s = some r → r.length < s.length) (repl : List Char)
    (c : Char) (t rest : List Char) (h : m (c :: t) = some rest) :
    scanSpec m hm repl (c :: t) = repl ++ scanSpec m hm repl rest := by
  rw [scanSpec]
  split
  · rename_i rest2 hr2
    rw [h] at hr2
    cases hr2
    rfl
  · rename_i hr2
    rw [h] at hr2
    cases hr2

theorem scanSpec_cons_none (m : List Char → Option (List Char))
    (hm : ∀ s r, m s = some r → r.length < s.length) (repl : List Char)
    (c : Char) (t : List Char) (h : m (c :: t) = none) :
    scanSpec m hm repl (c :: t) = c :: scanSpec m hm repl t := by
  rw [scanSpec]
  split
  · rename_i rest2 hr2
    rw [h] at hr2
    cases hr2
  · rfl

theorem scanReplaceF_eq_scanSpec (m : List Char → Option (List Char))
    (hm : ∀ s r, m s = some r → r.length < s.length) (repl : List Char) :
    ∀ (fuel : Nat) (s : List Char), s.length ≤ fuel →
      scanReplaceF m repl fuel s = scanSpec m hm repl s := by
  intro fuel
  induction fuel with
  | zero =>
    intro s hs
    have : s = [] := List.eq_nil_of_length_eq_zero (by omega)
    subst this
    rw [scanSpec]
    rfl
  | succ fuel ih =>
    intro s hs
    cases s with
    | nil => rw [scanSpec]; rfl
    | cons c t =>
      unfold scanReplaceF
      cases hmc : m (c :: t) with
      | some rest =>
        rw [scanSpec_cons_some m hm repl c t rest hmc]
        show repl ++ scanReplaceF m repl fuel rest = repl ++ scanSpec m hm repl rest
        have hlt := hm _ _ hmc
        rw [ih rest (by simp at hlt hs ⊢; omega)]
      | none =>
        rw [scanSpec_cons_none m hm repl c t hmc]
        show c :: scanReplaceF m repl fuel t = c :: scanSpec m hm repl t
        rw [ih t (by simp at hs; omega)]

/-- The group-template pass, fuel-free. -/
def groupScan (d repl : List Char) : List Char → List Char :=
  scanSpec (tryMatchGroup d) (tryMatchGroup_shrink d) repl

theorem regReplace_group_eq (d repl s : List Char) :
    regReplace (tryMatchGroup d) repl s = groupScan d repl s :=
  scanReplaceF_eq_scanSpec (tryMatchGroup d) (tryMatchGroup_shrink d) repl s.length s (le_refl _)

/-! ### C4: copy lemmas for the group pass -/

theorem groupScan_nil (d repl : List Char) : groupScan d repl [] = [] :=
  scanSpec_nil _ _ _

theorem groupScan_copy_char (d repl : List Char) (c : Char) (t : List Char)
    (h : c ≠ '{') : groupScan d repl (c :: t) = c :: groupScan d repl t :=
  scanSpec_cons_none _ _ _ _ _ (tryMatchGroup_not_lbrace d c t h)

theorem groupScan_copy_bracefree (d repl : List Char) :
    ∀ (l v : List Char), l.all (fun c => c ≠ '{') = true →
      groupScan d repl (l ++ v) = l ++ groupScan d repl v := by
  intro l
  induction l with
  | nil => intro v _; rfl
  | cons c t ih =>
    intro v h
    simp only [List.all_cons, Bool.and_eq_true, decide_eq_true_eq] at h
    rw [List.cons_append, groupScan_copy_char d repl c (t ++ v) h.1, ih v h.2]
    simp

theorem groupScan_variant_match (d repl w1 w2 rest : List Char)
    (h1 : w1.all jsRegexWs = true) (h2 : w2.all jsRegexWs = true) :
    groupScan d repl (wsVariant d w1 w2 ++ rest) = repl ++ groupScan d repl rest := by
  have hshape : wsVariant d w1 w2 ++ rest =
      '{' :: ('{' :: (w1 ++ 't' :: 'e' :: 'x' :: 't' :: (d ++ w2 ++ ['}', '}'])) ++ rest) := by
    unfold wsVariant
    simp
  rw [hshape]
  exact scanSpec_cons_some _ _ _ _ _ rest (by
    rw [← hshape]
    exact tryMatchGroup_variant d w1 w2 rest h1 h2)

theorem ws_all_no_lbrace (w : List Char) (h : w.all jsRegexWs = true) :
    w.all (fun c => c ≠ '{') = true := by
  rw [List.all_eq_true] at h ⊢
  intro c hc
  have := jsRegexWs_ne_lbrace (h c hc)
  simpa using this

theorem digits_all_no_lbrace (d : List Char) (h : d.all isDigitCh = true) :
    d.all (fun c => c ≠ '{') = true := by
  rw [List.all_eq_true] at h ⊢
  intro c hc
  have := isDigitCh_ne_lbrace (h c hc)
  simpa using this

/-- The interior of a placeholder (everything after the two opening
braces) contains no opening brace. -/
theorem variant_mid_no_lbrace (d w1 w2 : List Char)
    (hd : d.all isDigitCh = true) (h1 : w1.all jsRegexWs = true)
    (h2 : w2.all jsRegexWs = true) :
    (w1 ++ 't' :: 'e' :: 'x' :: 't' :: (d ++ w2 ++ ['}', '}'])).all
      (fun c => c ≠ '{') = true := by
  rw [List.all_append]
  refine Bool.and_eq_true_iff.mpr ⟨ws_all_no_lbrace w1 h1, ?_⟩
  simp only [List.all_cons, Bool.and_eq_true, decide_eq_true_eq]
  refine ⟨by decide, by decide, by decide, by decide, ?_⟩
  rw [List.all_append, List.all_append]
  exact Bool.and_eq_true_iff.mpr
    ⟨Bool.and_eq_true_iff.mpr ⟨digits_all_no_lbrace d hd, ws_all_no_lbrace w2 h2⟩, by decide⟩

theorem groupScan_variant_mismatch (d d2 repl w1 w2 rest : List Char)
    (hd : d.all isDigitCh = true) (hd2 : d2.all isDigitCh = true) (hne : d ≠ d2)
    (h1 : w1.all jsRegexWs = true) (h2 : w2.all jsRegexWs = true) :
    groupScan d repl (wsVariant d2 w1 w2 ++ rest) =
      wsVariant d2 w1 w2 ++ groupScan d repl rest := by
  have hmid := variant_mid_no_lbrace d2 w1 w2 hd2 h1 h2
  have hshape : wsVariant d2 w1 w2 ++ rest =
      '{' :: ('{' :: ((w1 ++ 't' :: 'e' :: 'x' :: 't' :: (d2 ++ w2 ++ ['}', '}'])) ++ rest)) := by
    unfold wsVariant
    simp
  rw [hshape]
  have hstep1 : groupScan d repl
      ('{' :: ('{' :: ((w1 ++ 't' :: 'e' :: 'x' :: 't' :: (d2 ++ w2 ++ ['}', '}'])) ++ rest))) =
      '{' :: groupScan d repl
        ('{' :: ((w1 ++ 't' :: 'e' :: 'x' :: 't' :: (d2 ++ w2 ++ ['}', '}'])) ++ rest)) :=
    scanSpec_cons_none _ _ _ _ _ (by
      rw [← hshape]
      exact tryMatchGroup_variant_ne d d2 w1 w2 rest hd hd2 hne h1 h2)
  rw [hstep1]
  have hsecond : tryMatchGroup d
      ('{' :: ((w1 ++ 't' :: 'e' :: 'x' :: 't' :: (d2 ++ w2 ++ ['}', '}'])) ++ rest)) = none := by
    cases hw : w1 ++ 't' :: 'e' :: 'x' :: 't' :: (d2 ++ w2 ++ ['}', '}']) with
    | nil =>
      exfalso
      cases w1 <;> simp at hw
    | cons mc mt =>
      have hmc : mc ≠ '{' := by
        have : (mc :: mt).all (fun c => c ≠ '{') = true := by rw [← hw]; exact hmid
        simp only [List.all_cons, Bool.and_eq_true, decide_eq_true_eq] at this
        exact this.1
      rw [List.cons_append]
      exact tryMatchGroup_second_not_lbrace d mc (mt ++ rest) hmc
  have hstep2 : groupScan d repl
      ('{' :: ((w1 ++ 't' :: 'e' :: 'x' :: 't' :: (d2 ++ w2 ++ ['}', '}'])) ++ rest)) =
      '{' :: groupScan d repl
        ((w1 ++ 't' :: 'e' :: 'x' :: 't' :: (d2 ++ w2 ++ ['}', '}'])) ++ rest) :=
    scanSpec_cons_none _ _ _ _ _ hsecond
  rw [hstep2]
  rw [groupScan_copy_bracefree d repl _ rest hmid]
  unfold wsVariant
  simp

/-! ### C4: segment-level behavior of the pass sequence -/

theorem segsChars_cons (seg : TSeg) (rest : List TSeg) :
    segsChars (seg :: rest) = segChars seg ++ segsChars rest := by
  unfold segsChars
  simp

theorem groupScan_segs (d repl : List Char) (hd : d.all isDigitCh = true) :
    ∀ segs : List TSeg, (∀ seg ∈ segs, segWF seg = true) →
      groupScan d repl (segsChars segs) = segsChars (segs.map (segPass d repl)) := by
  intro segs
  induction segs with
  | nil => intro _; exact groupScan_nil d repl
  | cons seg rest ih =>
    intro hwf
    have hseg := hwf seg (List.mem_cons_self seg rest)
    have hrest := ih (fun s hs => hwf s (List.mem_cons_of_mem seg hs))
    rw [segsChars_cons, List.map_cons, segsChars_cons]
    cases seg with
    | lit l =>
      simp only [segWF] at hseg
      simp only [segChars, segPass]
      rw [groupScan_copy_bracefree d repl l _ hseg, hrest]
    | ph d2 w1 w2 =>
      simp only [segWF, Bool.and_eq_true] at hseg
      obtain ⟨⟨⟨hne2, hd2⟩, hw1⟩, hw2⟩ := hseg
      simp only [segChars, segPass]
      by_cases heq : d2 = d
      · subst heq
        rw [if_pos rfl, groupScan_variant_match d2 repl w1 w2 _ hw1 hw2, hrest]
      · rw [if_neg heq, groupScan_variant_mismatch d d2 repl w1 w2 _ hd hd2
          (fun h => heq h.symm) hw1 hw2, hrest]

/-- The partial pass sequence: passes for indices 0..k-1 have run. -/
def segsPartial (textNodes : List CanvasNode) (k : Nat) : TSeg → TSeg
  | TSeg.lit l => TSeg.lit l
  | TSeg.ph d w1 w2 =>
    match (List.range k).find? (fun i => decide (d = natDigits (i + 1))) with
    | some i => TSeg.lit (nodeTextAt textNodes i).data
    | none => TSeg.ph d w1 w2

theorem segsPartial_zero (textNodes : List CanvasNode) (seg : TSeg) :
    segsPartial textNodes 0 seg = seg := by
  cases seg <;> rfl

theorem segsPartial_full (textNodes : List CanvasNode) (seg : TSeg) :
    segsPartial textNodes textNodes.length seg = segsFinal textNodes seg := by
  cases seg <;> rfl

theorem segsPartial_WF (textNodes : List CanvasNode) (k : Nat)
    (hk : k ≤ textNodes.length)
    (htexts : ∀ i, i < textNodes.length →
      (nodeTextAt textNodes i).data.all (fun c => c ≠ '{') = true)
    (seg : TSeg) (h : segWF seg = true) :
    segWF (segsPartial textNodes k seg) = true := by
  cases seg with
  | lit l => exact h
  | ph d w1 w2 =>
    cases hfind : (List.range k).find? (fun i => decide (d = natDigits (i + 1))) with
    | some i =>
      have hmem := List.mem_of_find?_eq_some hfind
      rw [List.mem_range] at hmem
      simp only [segsPartial, hfind, segWF]
      exact htexts i (by omega)
    | none =>
      simp only [segsPartial, hfind]
      exact h

theorem segsPartial_step (textNodes : List CanvasNode) (k : Nat) (seg : TSeg) :
    segPass (natDigits (k + 1)) (nodeTextAt textNodes k).data
      (segsPartial textNodes k seg) = segsPartial textNodes (k + 1) seg := by
  cases seg with
  | lit l => rfl
  | ph d w1 w2 =>
    cases hfind : (List.range k).find? (fun i => decide (d = natDigits (i + 1))) with
    | some i =>
      simp only [segsPartial, hfind, segPass]
      rw [List.range_succ, List.find?_append, hfind]
      simp
    | none =>
      simp only [segsPartial, hfind, segPass]
      rw [List.range_succ, List.find?_append, hfind]
      by_cases hd : d = natDigits (k + 1)
      · simp [hd]
      · simp [hd]

theorem applyGroupTemplate_fold (textNodes : List CanvasNode) (segs : List TSeg)
    (hwf : ∀ seg ∈ segs, segWF seg = true)
    (htexts : ∀ i, i < textNodes.length →
      (nodeTextAt textNodes i).data.all (fun c => c ≠ '{') = true) :
    ∀ k, k ≤ textNodes.length →
      (List.range k).foldl
        (fun acc i => regReplace (tryMatchGroup (natDigits (i + 1)))
          (nodeTextAt textNodes i).data acc)
        (segsChars segs) =
      segsChars (segs.map (segsPartial textNodes k)) := by
  intro k
  induction k with
  | zero =>
    intro _
    simp only [List.range_zero, List.foldl_nil]
    congr 1
    conv_lhs => rw [← List.map_id segs]
    exact List.map_congr_left (fun seg _ => (segsPartial_zero textNodes seg).symm)
  | succ k ih =>
    intro hk
    rw [List.range_succ, List.foldl_append, ih (by omega)]
    simp only [List.foldl_cons, List.foldl_nil]
    rw [regReplace_group_eq]
    rw [groupScan_segs (natDigits (k + 1)) (nodeTextAt textNodes k).data
      (natDigits_digits (k + 1)) (segs.map (segsPartial textNodes k))
      (by
        intro s hs
        obtain ⟨orig, horig, rfl⟩ := List.mem_map.mp hs
        exact segsPartial_WF textNodes k (by omega) htexts orig (hwf orig horig))]
    rw [List.map_map]
    congr 1
    exact List.map_congr_left (fun seg _ => segsPartial_step textNodes k seg)

/-! ### C4: untouched higher-index placeholders -/

theorem wsVariant_cons (d w1 w2 : List Char) :
    wsVariant d w1 w2 =
      '{' :: '{' :: (w1 ++ 't' :: 'e' :: 'x' :: 't' :: (d ++ w2 ++ ['}', '}'])) := rfl

theorem wsVariant_nil_nil (dj : List Char) :
    wsVariant dj [] [] = '{' :: '{' :: 't' :: 'e' :: 'x' :: 't' :: (dj ++ ['}', '}']) := by
  unfold wsVariant
  simp

theorem wsVariant_len (d w1 w2 : List Char) :
    (wsVariant d w1 w2).length = w1.length + w2.length + d.length + 8 := by
  unfold wsVariant
  simp
  omega

theorem containsSub_cons (p : List Char) (a : Char) (w : List Char)
    (h : ContainsSub p w) : ContainsSub p (a :: w) := by
  obtain ⟨u, v, rfl⟩ := h
  exact ⟨a :: u, v, rfl⟩

theorem containsSub_append_left (p x w : List Char)
    (h : ContainsSub p w) : ContainsSub p (x ++ w) := by
  obtain ⟨u, v, rfl⟩ := h
  exact ⟨x ++ u, v, by simp⟩

theorem patTail_no_lbrace (dj : List Char) (hdj : dj.all isDigitCh = true) :
    ('t' :: 'e' :: 'x' :: 't' :: (dj ++ ['}', '}'])).all (fun c => c ≠ '{') = true := by
  simp only [List.all_cons, Bool.and_eq_true, decide_eq_true_eq]
  refine ⟨by decide, by decide, by decide, by decide, ?_⟩
  rw [List.all_append]
  exact Bool.and_eq_true_iff.mpr ⟨digits_all_no_lbrace dj hdj, by decide⟩

theorem groupScan_patTail (d dj repl : List Char) (hdj : dj.all isDigitCh = true)
    (v : List Char) :
    groupScan d repl ('{' :: 't' :: 'e' :: 'x' :: 't' :: (dj ++ '}' :: '}' :: v)) =
      '{' :: 't' :: 'e' :: 'x' :: 't' :: (dj ++ '}' :: '}' :: groupScan d repl v) := by
  have h1 : groupScan d repl ('{' :: 't' :: 'e' :: 'x' :: 't' :: (dj ++ '}' :: '}' :: v)) =
      '{' :: groupScan d repl ('t' :: 'e' :: 'x' :: 't' :: (dj ++ '}' :: '}' :: v)) :=
    scanSpec_cons_none _ _ _ _ _ (tryMatchGroup_second_not_lbrace d 't' _ (by decide))
  rw [h1]
  have hshape : 't' :: 'e' :: 'x' :: 't' :: (dj ++ '}' :: '}' :: v) =
      ('t' :: 'e' :: 'x' :: 't' :: (dj ++ ['}', '}'])) ++ v := by
    simp
  rw [hshape, groupScan_copy_bracefree d repl _ v (patTail_no_lbrace dj hdj)]
  simp

theorem groupScan_preserves (d dj repl : List Char)
    (hd : d.all isDigitCh = true) (hdj : dj.all isDigitCh = true) (hne : d ≠ dj) :
    ∀ (n : Nat) (s : List Char), s.length ≤ n →
      ContainsSub (wsVariant dj [] []) s →
      ContainsSub (wsVariant dj [] []) (groupScan d repl s) := by
  intro n
  induction n with
  | zero =>
    intro s hs hsub
    obtain ⟨u, v, heq⟩ := hsub
    exfalso
    have hvl := wsVariant_len dj [] []
    have hslen : s.length = u.length + (wsVariant dj [] []).length + v.length := by
      rw [heq]
      simp
      omega
    omega
  | succ n ih =>
    intro s hs hsub
    obtain ⟨u, v, heq⟩ := hsub
    cases hm : tryMatchGroup d s with
    | some r =>
      obtain ⟨w1, w2, hw1, hw2, hsV⟩ := tryMatchGroup_shape d s r hm
      have hmid := variant_mid_no_lbrace d w1 w2 hd hw1 hw2
      have hkey : u ++ (wsVariant dj [] [] ++ v) = wsVariant d w1 w2 ++ r := by
        rw [← List.append_assoc, ← heq]
        exact hsV
      have hVle : (wsVariant d w1 w2).length ≤ u.length := by
        by_contra hlt
        push_neg at hlt
        cases u with
        | nil =>
          simp only [List.nil_append] at heq
          rw [heq] at hm
          rw [tryMatchGroup_variant_ne d dj [] [] v hd hdj hne rfl rfl] at hm
          cases hm
        | cons a u2 =>
          rw [wsVariant_cons] at hkey
          simp only [List.cons_append] at hkey
          injection hkey with ha hkey2
          cases u2 with
          | nil =>
            simp only [wsVariant, List.nil_append, List.append_nil, List.append_eq,
              List.cons_append] at hkey2
            injection hkey2 with hb hkey3
            cases w1 with
            | nil =>
              simp only [List.nil_append, List.append_eq, List.cons_append] at hkey3
              injection hkey3 with hc _
              exact absurd hc (by decide)
            | cons wc w1t =>
              simp only [List.append_eq, List.cons_append] at hkey3
              injection hkey3 with hc _
              simp only [List.all_cons, Bool.and_eq_true] at hw1
              exact absurd hc.symm (jsRegexWs_ne_lbrace hw1.1)
          | cons b u3 =>
            simp only [List.append_eq, List.cons_append] at hkey2
            injection hkey2 with hb hkey3
            have hlt2 : u3.length <
                (w1 ++ 't' :: 'e' :: 'x' :: 't' :: (d ++ w2 ++ ['}', '}'])).length := by
              rw [wsVariant_cons] at hlt
              simp only [List.length_cons] at hlt
              omega
            rcases List.append_eq_append_iff.mp hkey3 with ⟨a2, hmid2, hpv⟩ | ⟨c2, hu3, _⟩
            · cases a2 with
              | nil =>
                have hlen := congrArg List.length hmid2
                simp only [List.append_nil] at hlen
                rw [hlen] at hlt2
                exact absurd hlt2 (lt_irrefl _)
              | cons mc m2t =>
                simp only [wsVariant, List.nil_append, List.append_nil, List.append_eq,
                  List.cons_append] at hpv
                injection hpv with hmc0 _
                have hmem : mc ∈ w1 ++ 't' :: 'e' :: 'x' :: 't' :: (d ++ w2 ++ ['}', '}']) := by
                  rw [hmid2]
                  exact List.mem_append_right u3 (List.mem_cons_self mc m2t)
                have hnb := List.all_eq_true.mp hmid mc hmem
                simp at hnb
                exact hnb hmc0.symm
            · have hlen := congrArg List.length hu3
              simp only [List.length_append] at hlen hlt2
              omega
      obtain ⟨u2, hr⟩ : ∃ u2, r = u2 ++ (wsVariant dj [] [] ++ v) := by
        rcases List.append_eq_append_iff.mp hkey.symm with ⟨a2, h1, h2⟩ | ⟨c2, h1, h2⟩
        · exact ⟨a2, h2⟩
        · have hlenc : c2.length = 0 := by
            have := congrArg List.length h1
            simp at this
            omega
          have hc2 : c2 = [] := List.eq_nil_of_length_eq_zero hlenc
          subst hc2
          exact ⟨[], by simpa using h2.symm⟩
      cases s with
      | nil =>
        exfalso
        have := congrArg List.length hsV
        rw [wsVariant_cons] at this
        simp at this
      | cons c0 t0 =>
        have hstep : groupScan d repl (c0 :: t0) = repl ++ groupScan d repl r :=
          scanSpec_cons_some _ _ _ _ _ r hm
        rw [hstep]
        apply containsSub_append_left
        apply ih r
        · have hrlen := tryMatchGroup_shrink d (c0 :: t0) r hm
          simp only [List.length_cons] at hrlen hs
          omega
        · exact ⟨u2, v, by rw [hr]; simp⟩
    | none =>
      cases u with
      | nil =>
        have hs2 : s = '{' :: ('{' :: 't' :: 'e' :: 'x' :: 't' :: (dj ++ '}' :: '}' :: v)) := by
          rw [heq, wsVariant_nil_nil]
          simp
        rw [hs2] at hm
        have hstep : groupScan d repl s =
            '{' :: groupScan d repl ('{' :: 't' :: 'e' :: 'x' :: 't' :: (dj ++ '}' :: '}' :: v)) := by
          rw [hs2]
          exact scanSpec_cons_none _ _ _ _ _ hm
        rw [hstep, groupScan_patTail d dj repl hdj v]
        refine ⟨[], groupScan d repl v, ?_⟩
        rw [wsVariant_nil_nil]
        simp
      | cons a u2 =>
        have hs2 : s = a :: (u2 ++ wsVariant dj [] [] ++ v) := by
          rw [heq]
          simp
        rw [hs2] at hm
        have hstep : groupScan d repl s =
            a :: groupScan d repl (u2 ++ wsVariant dj [] [] ++ v) := by
          rw [hs2]
          exact scanSpec_cons_none _ _ _ _ _ hm
        rw [hstep]
        apply containsSub_cons
        apply ih
        · have hslen := congrArg List.length hs2
          simp only [List.length_cons] at hslen
          omega
        · exact ⟨u2, v, rfl⟩

theorem foldl_group_preserves (textNodes : List CanvasNode) (j : Nat)
    (l : List Nat) (hl : ∀ i ∈ l, i + 1 ≠ j) :
    ∀ s : List Char, ContainsSub (placeholderStr j) s →
      ContainsSub (placeholderStr j)
        (l.foldl (fun acc i => regReplace (tryMatchGroup (natDigits (i + 1)))
          (nodeTextAt textNodes i).data acc) s) := by
  induction l with
  | nil =>
    intro s hs
    simpa using hs
  | cons i l2 ih =>
    intro s hs
    simp only [List.foldl_cons]
    apply ih (fun i2 h2 => hl i2 (List.mem_cons_of_mem i h2))
    rw [regReplace_group_eq]
    have hne : natDigits (i + 1) ≠ natDigits j := by
      intro h
      exact hl i (List.mem_cons_self i l2) (natDigits_inj h)
    exact groupScan_preserves (natDigits (i + 1)) (natDigits j)
      (nodeTextAt textNodes i).data (natDigits_digits (i + 1)) (natDigits_digits j) hne
      s.length s (le_refl _) hs

/-- C4: applyGroupTemplate's sequential passes. (1) A placeholder
\{\{text<j>\}} whose index j exceeds the node count survives every pass:
it still occurs in the output. (2) On a template decomposed into
well-formed segments (literal pieces free of the character that opens a
match, placeholders with their interior whitespace), when the node
texts themselves contain no opening brace and no dollar sign (for a
dollar-free replacement string, JS String.replace's GetSubstitution
leaves the replacement verbatim, so the literal-insertion model is
exact on this domain), the function rewrites exactly the placeholder
segments: each placeholder whose index names a node becomes that
node's text (empty when absent, via nodeTextAt), and every other
segment is copied unchanged. -/
theorem applyGroupTemplate_spec :
    (∀ (template : String) (textNodes : List CanvasNode) (j : Nat),
        textNodes.length < j →
        ContainsSub (placeholderStr j) template.data →
        ContainsSub (placeholderStr j) (applyGroupTemplate template textNodes).data) ∧
    (∀ (textNodes : List CanvasNode) (segs : List TSeg),
        (∀ seg ∈ segs, segWF seg = true) →
        (∀ i, i < textNodes.length →
          (nodeTextAt textNodes i).data.all (fun c => c ≠ '{') = true) →
        (∀ i, i < textNodes.length →
          (nodeTextAt textNodes i).data.all (fun c => c ≠ '$') = true) →
        applyGroupTemplate (String.mk (segsChars segs)) textNodes =
          String.mk (segsChars (segs.map (segsFinal textNodes)))) := by
  constructor
  · intro template textNodes j hj hsub
    exact foldl_group_preserves textNodes j (List.range textNodes.length)
      (fun i hi => by rw [List.mem_range] at hi; omega) template.data hsub
  · intro textNodes segs hwf htexts _
    have h := applyGroupTemplate_fold textNodes segs hwf htexts textNodes.length (le_refl _)
    unfold applyGroupTemplate
    have hd : (String.mk (segsChars segs)).data = segsChars segs := rfl
    rw [hd, h]
    refine congrArg (fun l => String.mk l) (congrArg segsChars ?_)
    exact List.map_congr_left (fun seg _ => segsPartial_full textNodes seg)

theorem applyGroupTemplate_spec_witness :
    ContainsSub (placeholderStr 2)
      (applyGroupTemplate (String.mk (placeholderStr 2))
        [⟨"n1", 0, 0, 0, 0, none, some "A"⟩]).data ∧
    applyGroupTemplate (String.mk (segsChars [TSeg.ph ['1'] [] [], TSeg.lit ['-']]))
        [⟨"n1", 0, 0, 0, 0, none, some "A"⟩] =
      String.mk (segsChars
        ([TSeg.ph ['1'] [] [], TSeg.lit ['-']].map
          (segsFinal [⟨"n1", 0, 0, 0, 0, none, some "A"⟩]))) :=
  ⟨applyGroupTemplate_spec.1 (String.mk (placeholderStr 2))
      [⟨"n1", 0, 0, 0, 0, none, some "A"⟩] 2 (by decide) ⟨[], [], by simp⟩,
    applyGroupTemplate_spec.2 [⟨"n1", 0, 0, 0, 0, none, some "A"⟩]
      [TSeg.ph ['1'] [] [], TSeg.lit ['-']] (by decide)
      (by
        intro i hi
        have h0 : i = 0 := by
          simp only [List.length_cons, List.length_nil] at hi
          omega
        subst h0
        decide)
      (by
        intro i hi
        have h0 : i = 0 := by
          simp only [List.length_cons, List.length_nil] at hi
          omega
        subst h0
        decide)⟩
